import Mathlib

/-!
# hoconfmt — formal model of the HOCON formatting pipeline

A shallow embedding of the hoconfmt source (lexer.ts, parser.ts, formatter.ts,
index.ts) in Lean 4, together with proofs settling the specification claims.

Modelling conventions:
* Source strings are processed as `List Char`; token/AST payloads are `String`s.
* Source positions (`line`/`column`/`offset`, `location` spans) are dropped:
  no behaviour of the pipeline depends on them (they are only copied into
  nodes and never read back by the parser or formatter).
* `NumberNode.value` (a JS float produced by `parseFloat`) is dropped: the
  formatter and the width estimator only ever read `NumberNode.raw`.
* The lexer's main loop and the parser are defined with an explicit recursion
  `fuel`; every recursive call peels one unit.  `none` means the fuel was
  exhausted.  This is needed because the source parser genuinely fails to
  terminate on some inputs (`Parser.parseArray` does not consume a token when
  the current token can neither start a value nor is a comma / `]`), which is
  the subject of one of the claims.
-/

namespace Hocon

/-- Token kinds, one constructor per member of the source `TokenType` enum
(`include` is rendered `incl` as `include` is a Lean keyword). -/
inductive TokenType where
  | leftBrace | rightBrace | leftBracket | rightBracket
  | equals | colon | comma | plusEquals
  | string | multilineString | number | boolean | null
  | incl | substitution | comment | newline | whitespace | key
  | eof
deriving DecidableEq, Repr

/-- A lexer token: kind, decoded value and raw source text
(locations dropped, see the module docstring). -/
structure Token where
  ttype : TokenType
  value : String
  raw : String
deriving DecidableEq, Repr

/-- The end-of-file token pushed by `Lexer.tokenize` after the scan loop. -/
def eofToken : Token := ⟨.eof, "", ""⟩

/-- `Lexer.isDigit`: the regex `[0-9]`. -/
def isDigitChar (c : Char) : Bool := '0' ≤ c && c ≤ '9'

/-- `Lexer.isUnquotedChar`: the regex `[a-zA-Z0-9_\-.]`. -/
def isUnquotedChar (c : Char) : Bool :=
  ('a' ≤ c && c ≤ 'z') || ('A' ≤ c && c ≤ 'Z') || isDigitChar c ||
    c = '_' || c = '-' || c = '.'

/-- Whitespace characters other than newline (`Lexer.scanWhitespace` guard). -/
def isWsChar (c : Char) : Bool := c = ' ' || c = '\t' || c = '\r'

/-- Body of `Lexer.scanQuotedString` after the opening quote: returns the
decoded value, the consumed raw text (including a closing quote if present)
and the rest of the input.  Escapes `\n \t \r \\ \"` are decoded; any other
escape is passed through as backslash plus the character. -/
def quotedBody : List Char → List Char × List Char × List Char
  | [] => ([], [], [])
  | '"' :: rest => ([], ['"'], rest)
  | '\\' :: [] => (['\\'], ['\\'], [])
  | '\\' :: e :: rest =>
    let esc : List Char :=
      if e = 'n' then ['\n']
      else if e = 't' then ['\t']
      else if e = 'r' then ['\r']
      else if e = '\\' then ['\\']
      else if e = '"' then ['"']
      else ['\\', e]
    let (v, raw, r) := quotedBody rest
    (esc ++ v, '\\' :: e :: raw, r)
  | c :: rest =>
    let (v, raw, r) := quotedBody rest
    (c :: v, c :: raw, r)

/-- Body of `Lexer.scanMultilineString` after the opening `"""`: verbatim
value, whether a closing `"""` was found (and consumed), rest of input. -/
def multilineBody : List Char → List Char × Bool × List Char
  | '"' :: '"' :: '"' :: rest => ([], true, rest)
  | c :: rest =>
    let (v, closed, r) := multilineBody rest
    (c :: v, closed, r)
  | [] => ([], false, [])

/-- The optional leading `-` of `Lexer.scanNumber`. -/
def scanNumberSign : List Char → List Char × List Char
  | '-' :: r => (['-'], r)
  | r => (([] : List Char), r)

/-- The optional `.`+digits part of `Lexer.scanNumber` (taken only when a
digit follows the dot). -/
def scanNumberFrac : List Char → List Char × List Char
  | '.' :: r =>
    if (match r with | d :: _ => isDigitChar d | [] => false) then
      ('.' :: r.takeWhile isDigitChar, r.dropWhile isDigitChar)
    else (([] : List Char), '.' :: r)
  | cs => (([] : List Char), cs)

/-- The optional exponent sign of `Lexer.scanNumber`. -/
def scanNumberExpoSign : List Char → List Char × List Char
  | s :: r' => if s = '+' || s = '-' then ([s], r') else (([] : List Char), s :: r')
  | [] => (([] : List Char), ([] : List Char))

/-- The optional exponent part of `Lexer.scanNumber`. -/
def scanNumberExpo : List Char → List Char × List Char
  | e :: r =>
    if e = 'e' || e = 'E' then
      (e :: ((scanNumberExpoSign r).1 ++ (scanNumberExpoSign r).2.takeWhile isDigitChar),
        (scanNumberExpoSign r).2.dropWhile isDigitChar)
    else (([] : List Char), e :: r)
  | [] => (([] : List Char), ([] : List Char))

/-- `Lexer.scanNumber` starting at `cs` (the guard of the number branch holds):
optional `-`, digit run, optional `.`+digits (only when a digit follows the
dot), optional exponent with optional sign.  Returns raw text and rest. -/
def scanNumber (cs : List Char) : List Char × List Char :=
  ((scanNumberSign cs).1 ++ (scanNumberSign cs).2.takeWhile isDigitChar
      ++ (scanNumberFrac ((scanNumberSign cs).2.dropWhile isDigitChar)).1
      ++ (scanNumberExpo
          (scanNumberFrac ((scanNumberSign cs).2.dropWhile isDigitChar)).2).1,
    (scanNumberExpo (scanNumberFrac ((scanNumberSign cs).2.dropWhile isDigitChar)).2).2)

/-- `peek() === x`: the next character equals `x`. -/
def nextIs (x : Char) : List Char → Bool
  | c2 :: _ => c2 = x
  | [] => false

/-- `isDigit(peek())`. -/
def nextDigit : List Char → Bool
  | c2 :: _ => isDigitChar c2
  | [] => false

/-- The multiline-string opener test: two further quotes follow. -/
def nextTwoQuotes : List Char → Bool
  | '"' :: '"' :: _ => true
  | _ => false

/-- One step of `Lexer.scanToken` on current char `c` with remaining input
`rest`.  Returns the token produced (none for a skipped unknown character)
and the rest of the input.  Branches in source order. -/
def scanStep (c : Char) (rest : List Char) : Option Token × List Char :=
  if isWsChar c then
    -- scanWhitespace: a run of space/tab/CR including `c`
    let run := c :: rest.takeWhile isWsChar
    (some ⟨.whitespace, ⟨run⟩, ⟨run⟩⟩, rest.dropWhile isWsChar)
  else if c = '\n' then
    (some ⟨.newline, "\n", "\n"⟩, rest)
  else if c = '/' && nextIs '/' rest then
    -- scanComment '//': marker plus text to end of line
    let body := (rest.drop 1).takeWhile (fun x => x ≠ '\n')
    (some ⟨.comment, ⟨body⟩, "//" ++ ⟨body⟩⟩, (rest.drop 1).dropWhile (fun x => x ≠ '\n'))
  else if c = '#' then
    let body := rest.takeWhile (fun x => x ≠ '\n')
    (some ⟨.comment, ⟨body⟩, "#" ++ ⟨body⟩⟩, rest.dropWhile (fun x => x ≠ '\n'))
  else if c = '\x7b' then (some ⟨.leftBrace, "\x7b", "\x7b"⟩, rest)
  else if c = '\x7d' then (some ⟨.rightBrace, "\x7d", "\x7d"⟩, rest)
  else if c = '[' then (some ⟨.leftBracket, "[", "["⟩, rest)
  else if c = ']' then (some ⟨.rightBracket, "]", "]"⟩, rest)
  else if c = ',' then (some ⟨.comma, ",", ","⟩, rest)
  else if c = ':' then (some ⟨.colon, ":", ":"⟩, rest)
  else if c = '=' then (some ⟨.equals, "=", "="⟩, rest)
  else if c = '+' && nextIs '=' rest then
    (some ⟨.plusEquals, "+=", "+="⟩, rest.drop 1)
  else if c = '$' && nextIs '\x7b' rest then
    -- scanSubstitution: `${`, optional `?`, path up to (and consuming) `}`
    let afterBrace := rest.drop 1
    let opt := match afterBrace with | '?' :: _ => true | _ => false
    let body := if opt then afterBrace.drop 1 else afterBrace
    let path := body.takeWhile (fun x => x ≠ '\x7d')
    let after := body.dropWhile (fun x => x ≠ '\x7d')
    let closed := after ≠ []
    let raw : String :=
      "$\x7b" ++ (if opt then "?" else "") ++ ⟨path⟩ ++ (if closed then "\x7d" else "")
    (some ⟨.substitution, ⟨path⟩, raw⟩, after.drop 1)
  else if c = '"' && nextTwoQuotes rest then
    -- scanMultilineString
    (some ⟨.multilineString, ⟨(multilineBody (rest.drop 2)).1⟩,
        "\"\"\"" ++ (⟨(multilineBody (rest.drop 2)).1⟩ : String)
          ++ (if (multilineBody (rest.drop 2)).2.1 then "\"\"\"" else "")⟩,
      (multilineBody (rest.drop 2)).2.2)
  else if c = '"' then
    (some ⟨.string, ⟨(quotedBody rest).1⟩, "\"" ++ (⟨(quotedBody rest).2.1⟩ : String)⟩,
      (quotedBody rest).2.2)
  else if isDigitChar c || (c = '-' && nextDigit rest) then
    (some ⟨.number, ⟨(scanNumber (c :: rest)).1⟩, ⟨(scanNumber (c :: rest)).1⟩⟩,
      (scanNumber (c :: rest)).2)
  else if isUnquotedChar c then
    -- scanUnquoted with post-hoc keyword classification
    let run := c :: rest.takeWhile isUnquotedChar
    let v : String := ⟨run⟩
    let r := rest.dropWhile isUnquotedChar
    if v = "true" || v = "false" then (some ⟨.boolean, v, v⟩, r)
    else if v = "null" then (some ⟨.null, v, v⟩, r)
    else if v = "include" then (some ⟨.incl, v, v⟩, r)
    else (some ⟨.key, v, v⟩, r)
  else
    -- unknown character: skipped without emitting a token
    (none, rest)

/-- The `Lexer.tokenize` scan loop.  Every `scanStep` consumes at least one
character, so `fuel = length + 1` never runs out. -/
def tokenizeLoop : Nat → List Char → List Token
  | 0, _ => []
  | _ + 1, [] => []
  | n + 1, c :: rest =>
    match scanStep c rest with
    | (some t, r) => t :: tokenizeLoop n r
    | (none, r) => tokenizeLoop n r

/-- `tokenize`: scan the whole source, then append the EOF token. -/
def tokenize (s : String) : List Token :=
  tokenizeLoop (s.data.length + 1) s.data ++ [eofToken]

/-! ## AST (types.ts)

The node lists that participate in the recursion (`ObjectNode.fields`,
`ArrayNode.elements`, `ConcatenationNode.parts`) are modelled as dedicated
mutually-inductive list types so that the formatter can be compiled by
structural recursion (and hence evaluated by `decide`/`rfl`). -/

/-- `CommentNode.style`: `'//'` or `'#'`. -/
inductive CommentStyle where
  | slash | hash
deriving DecidableEq, Repr

/-- `CommentNode` (locations dropped). -/
structure CommentNode where
  style : CommentStyle
  value : String
deriving DecidableEq, Repr

/-- `KeyNode`: path segments plus the original raw text. -/
structure KeyNode where
  parts : List String
  raw : String
deriving DecidableEq, Repr

/-- `FieldNode.separator`: `'='`, `':'` or `'none'` (object shorthand). -/
inductive Separator where
  | eqSep | colonSep | noneSep
deriving DecidableEq, Repr

/-- `IncludeNode.kind`. -/
inductive IncludeKind where
  | file | url | classpath
deriving DecidableEq, Repr

mutual

/-- `ValueNode` variants.  `num` keeps only the raw literal text (the decoded
float is never read); `str` carries decoded value, raw text and the
multiline flag; `subst` carries path, optional flag and raw text. -/
inductive ValueNode where
  | str (value raw : String) (multiline : Bool)
  | num (raw : String)
  | boolean (b : Bool)
  | null
  | obj (fields : MemberList)
  | arr (elements : ElementList)
  | subst (path : String) (optional : Bool) (raw : String)
  | concat (parts : ValueList)

/-- List of concatenation parts. -/
inductive ValueList where
  | nil
  | cons (v : ValueNode) (rest : ValueList)

/-- An array element: a value or a standalone comment. -/
inductive Element where
  | val (v : ValueNode)
  | comm (c : CommentNode)

/-- List of array elements. -/
inductive ElementList where
  | nil
  | cons (e : Element) (rest : ElementList)

/-- A document/object member: field, include, or standalone comment, each
with its attachment metadata (`leadingComments`, `trailingComment`,
`precedingBlankLines`). -/
inductive Member where
  | field (key : KeyNode) (sep : Separator) (value : ValueNode)
      (leading : List CommentNode) (trailing : Option CommentNode) (pbl : Option Nat)
  | incl (path : String) (required : Bool) (kind : IncludeKind)
      (leading : List CommentNode) (pbl : Option Nat)
  | comm (c : CommentNode) (leading : List CommentNode) (pbl : Option Nat)

/-- List of object members. -/
inductive MemberList where
  | nil
  | cons (m : Member) (rest : MemberList)

end

/-- `DocumentNode.body`. -/
def Document := List Member

/-- Convert an accumulated `List` of parts into the AST list type. -/
def toValueList : List ValueNode → ValueList
  | [] => .nil
  | v :: rest => .cons v (toValueList rest)

/-- Convert an accumulated `List` of elements into the AST list type. -/
def toElementList : List Element → ElementList
  | [] => .nil
  | e :: rest => .cons e (toElementList rest)

/-- Convert an accumulated `List` of members into the AST list type. -/
def toMemberList : List Member → MemberList
  | [] => .nil
  | m :: rest => .cons m (toMemberList rest)

/-- Length of a `ValueList`. -/
def ValueList.length : ValueList → Nat
  | .nil => 0
  | .cons _ rest => 1 + rest.length

/-- Length of an `ElementList`. -/
def ElementList.length : ElementList → Nat
  | .nil => 0
  | .cons _ rest => 1 + rest.length

/-- `node.leadingComments = [...this.pendingComments]` on a freshly parsed
member (the parser only ever assigns to a node that has none). -/
def Member.withLeading (pending : List CommentNode) : Member → Member
  | .field k s v _ t p => .field k s v pending t p
  | .incl path r kind _ p => .incl path r kind pending p
  | .comm c _ p => .comm c pending p

/-! ## Formatter (formatter.ts)

The source class only ever appends to `this.output`; each method is modelled
as a function returning the text it appends, parameterised by the current
`indentLevel`.  Only `DEFAULT_OPTIONS` is ever used by the pipeline
(`formatAst` is always called without an options argument), so the option
values are fixed: 2-space indentation, `" = "` separator, comments normalized
to `//`, double quotes, `maxLineLength = 80`. -/

/-- `Formatter.escapeString`, one character at a time.  The source applies
five global `.replace` passes (`\\`, `"`, `\n`, `\r`, `\t`, in that order);
since no replacement output contains a character matched by a later pass at
a fresh position, this equals the per-character expansion. -/
def escChar (c : Char) : List Char :=
  if c = '\\' then ['\\', '\\']
  else if c = '"' then ['\\', '"']
  else if c = '\n' then ['\\', 'n']
  else if c = '\r' then ['\\', 'r']
  else if c = '\t' then ['\\', 't']
  else [c]

/-- `Formatter.escapeString`. -/
def escapeString (s : String) : String := ⟨(s.data.map escChar).flatten⟩

/-- `Formatter.needsQuoting`: empty strings, the four keywords, and anything
with a character outside `[a-zA-Z0-9_\-.]` must be quoted. -/
def needsQuoting (s : String) : Bool :=
  if s.length = 0 then true
  else if s = "true" || s = "false" || s = "null" || s = "include" then true
  else !s.data.all isUnquotedChar

/-- `Formatter.writeIndent`: `indentSize * indentLevel` copies of the indent
character (two spaces per level). -/
def writeIndent (lvl : Nat) : String := ⟨List.replicate (2 * lvl) ' '⟩

/-- Quote a key segment when needed (body of `Formatter.formatKey`). -/
def quotePart (p : String) : String :=
  if needsQuoting p then "\"" ++ escapeString p ++ "\"" else p

/-- `.join('.')` over the quoted segments. -/
def joinDot : List String → String
  | [] => ""
  | [s] => s
  | s :: rest => s ++ "." ++ joinDot rest

/-- `Formatter.formatKey`.  A single segment is quoted on its own; several
segments are each quoted as needed and joined with dots (an empty segment
list produces the empty join, as in the source). -/
def formatKey (k : KeyNode) : String :=
  match k.parts with
  | [p] => quotePart p
  | ps => joinDot (ps.map quotePart)

/-- `Formatter.formatComment` under the default `normalizeComments: '//'`:
always the `//` marker followed by the comment text. -/
def formatComment (c : CommentNode) : String := "//" ++ c.value

/-- `Formatter.formatSubstitution`. -/
def formatSubstitution (path : String) (optional : Bool) : String :=
  if optional then "$\x7b?" ++ path ++ "\x7d" else "$\x7b" ++ path ++ "\x7d"

/-- Is a value a substitution (the test in `formatConcatenation`)? -/
def isSubst : ValueNode → Bool
  | .subst _ _ _ => true
  | _ => false

/-- `pbl ≠ undefined && pbl > 0`: the precondition for emitting a blank line
before a member. -/
def pblPositive : Option Nat → Bool
  | some n => decide (0 < n)
  | none => false

/-- Accessor for a member's `precedingBlankLines`. -/
def pblOf : Member → Option Nat
  | .field _ _ _ _ _ p => p
  | .incl _ _ _ _ p => p
  | .comm _ _ p => p

/-- The leading-comment loop of `formatRootElement`: each comment followed by
a newline, with no indentation (as in the source). -/
def leadingBlock : List CommentNode → String
  | [] => ""
  | c :: rest => formatComment c ++ "\n" ++ leadingBlock rest

mutual

/-- `Formatter.estimateValueLength` on values. -/
def estimateValueLength : ValueNode → Nat
  | .str v _ _ => v.length + 2
  | .num raw => raw.length
  | .boolean b => if b then 4 else 5
  | .null => 4
  | .subst _ _ raw => raw.length
  | .obj _ => 100
  | .arr _ => 100
  | .concat parts => estimateValueListLength parts

/-- Sum of the part estimates of a concatenation (`parts.reduce`). -/
def estimateValueListLength : ValueList → Nat
  | .nil => 0
  | .cons v rest => estimateValueLength v + estimateValueListLength rest

end

/-- `Formatter.estimateValueLength` on an array element: comments count 100
(forcing multiline). -/
def estimateElementLength : Element → Nat
  | .comm _ => 100
  | .val v => estimateValueLength v

/-- The comment scan at the top of `Formatter.canArrayFitOnLine`. -/
def arrayHasComment : ElementList → Bool
  | .nil => false
  | .cons (.comm _) _ => true
  | .cons (.val _) rest => arrayHasComment rest

/-- The width accumulation loop of `canArrayFitOnLine`: 2 extra characters
(", ") before every element but the first, plus each element's estimate. -/
def arrayWidthFrom (first : Bool) : ElementList → Nat
  | .nil => 0
  | .cons e rest =>
    (if first then 0 else 2) + estimateElementLength e + arrayWidthFrom false rest

/-- `Formatter.canArrayFitOnLine`: false if any element is a comment,
otherwise the estimated width (`2` for the brackets plus the loop above)
must be strictly below `maxLineLength = 80`. -/
def canArrayFitOnLine (els : ElementList) : Bool :=
  if arrayHasComment els then false
  else decide (2 + arrayWidthFrom true els < 80)

mutual

/-- `Formatter.formatValue`. -/
def formatValue (lvl : Nat) : ValueNode → String
  | .str v _ multiline =>
    if multiline then "\"\"\"" ++ v ++ "\"\"\""
    else "\"" ++ escapeString v ++ "\""
  | .num raw => raw
  | .boolean b => if b then "true" else "false"
  | .null => "null"
  | .obj fields =>
    -- formatObject
    match fields with
    | .nil => "\x7b\x7d"
    | .cons m rest =>
      "\x7b\n" ++ formatObjectMembers (lvl + 1) true (.cons m rest) ++
        writeIndent lvl ++ "\x7d"
  | .arr els =>
    -- formatArray
    match els with
    | .nil => "[]"
    | .cons e rest =>
      if canArrayFitOnLine (.cons e rest) then
        "[" ++ formatArraySingle lvl true (.cons e rest) ++ "]"
      else
        "[\n" ++ formatArrayMulti (lvl + 1) (.cons e rest) ++ writeIndent lvl ++ "]"
  | .subst path optional _ => formatSubstitution path optional
  | .concat parts => formatConcatenation lvl parts

/-- The member loop of `Formatter.formatObject`: an optional blank line for
members with a positive recorded blank-line count (never the first member),
then the member, then a newline. -/
def formatObjectMembers (lvl : Nat) (first : Bool) : MemberList → String
  | .nil => ""
  | .cons m rest =>
    (if !first && pblPositive (pblOf m) then "\n" else "") ++
      formatRootElement lvl m ++ "\n" ++ formatObjectMembers lvl false rest

/-- `Formatter.formatRootElement`: leading comments (unindented, as in the
source), then the include / field / comment itself. -/
def formatRootElement (lvl : Nat) : Member → String
  | .field k _ v leading trailing _ =>
    leadingBlock leading ++ writeIndent lvl ++ formatKey k ++ " = " ++
      formatValue lvl v ++
      (match trailing with
       | some tc => " " ++ formatComment tc
       | none => "")
  | .incl path required kind leading _ =>
    leadingBlock leading ++ writeIndent lvl ++ "include " ++
      (if required then "required(" else "") ++
      (match kind with
       | .file => "\"" ++ escapeString path ++ "\""
       | .url => "url(\"" ++ escapeString path ++ "\")"
       | .classpath => "classpath(\"" ++ escapeString path ++ "\")") ++
      (if required then ")" else "")
  | .comm c leading _ => leadingBlock leading ++ formatComment c

/-- The single-line element loop of `Formatter.formatArray`: `", "` before
every element but the first; comments use `formatComment`. -/
def formatArraySingle (lvl : Nat) (first : Bool) : ElementList → String
  | .nil => ""
  | .cons e rest =>
    (if !first then ", " else "") ++
      (match e with
       | .comm c => formatComment c
       | .val v => formatValue lvl v) ++
      formatArraySingle lvl false rest

/-- The multi-line element loop of `Formatter.formatArray`: indent, element,
newline (no commas). -/
def formatArrayMulti (lvl : Nat) : ElementList → String
  | .nil => ""
  | .cons e rest =>
    writeIndent lvl ++
      (match e with
       | .comm c => formatComment c
       | .val v => formatValue lvl v) ++ "\n" ++
      formatArrayMulti lvl rest

/-- `Formatter.formatConcatenation`: the first part bare, then each later
part preceded by a space unless it or its predecessor is a substitution. -/
def formatConcatenation (lvl : Nat) : ValueList → String
  | .nil => ""
  | .cons p rest => formatValue lvl p ++ formatConcatRest lvl p rest

/-- Tail of `formatConcatenation`, carrying the previous part. -/
def formatConcatRest (lvl : Nat) (prev : ValueNode) : ValueList → String
  | .nil => ""
  | .cons p rest =>
    (if !isSubst prev && !isSubst p then " " else "") ++
      formatValue lvl p ++ formatConcatRest lvl p rest

end

/-- The per-member loop of `Formatter.formatDocument`: blank line for a
positive recorded count (never before the first member), the member, then a
newline.  The document is rendered at indent level 0. -/
def formatDocumentMembers (first : Bool) : List Member → String
  | [] => ""
  | m :: rest =>
    (if !first && pblPositive (pblOf m) then "\n" else "") ++
      formatRootElement 0 m ++ "\n" ++ formatDocumentMembers false rest

/-- `output.endsWith('\n')`. -/
def endsWithNL (s : String) : Bool := s.data.getLast? = some '\n'

/-- Emit a collapsed newline run: runs of three or more become exactly two
(the replacement string `'\n\n'` of the `/\n{3,}/g` pass); shorter runs are
kept as they are. -/
def emitRun (k : Nat) : List Char :=
  if 3 ≤ k then ['\n', '\n'] else List.replicate k '\n'

mutual

/-- `output.replace(/\n{3,}/g, '\n\n')`: scan for newline runs... -/
def collapseNL : List Char → List Char
  | [] => []
  | c :: rest =>
    if c = '\n' then collapseRun 1 rest
    else c :: collapseNL rest

/-- ...and each maximal run of `k` newlines is emitted through `emitRun`. -/
def collapseRun (k : Nat) : List Char → List Char
  | [] => emitRun k
  | c :: rest =>
    if c = '\n' then collapseRun (k + 1) rest
    else emitRun k ++ (c :: collapseNL rest)

end

/-- `Formatter.format`: render the document body, ensure a final newline,
then collapse newline runs of three or more. -/
def formatAst (doc : Document) : String :=
  let out := formatDocumentMembers true doc
  let out := if !endsWithNL out then out ++ "\n" else out
  ⟨collapseNL out.data⟩

/-! ## Parser (parser.ts)

The source parser is a class with a token array, a cursor `pos` and a
`pendingComments` buffer.  The cursor only moves forward, so the state is
modelled as the remaining token list plus the pending buffer.
`currentToken()` falls back to the final EOF token once the cursor passes
the end, which is the head-or-EOF of the remaining list; `advance()` does
not move past EOF.

The recursive parsing functions carry an explicit `fuel` (see the module
docstring): every call into the mutual block peels one unit, and `none`
means the fuel ran out.  This is faithful in the only way a total model can
be, because the source's `parseArray` loop makes no progress — and therefore
never returns — when the current token can neither start a value nor is a
comma, comment or `]`. -/

/-- Parser state: remaining tokens and the pending-comments buffer. -/
structure PSt where
  toks : List Token
  pending : List CommentNode
deriving DecidableEq, Repr

/-- `currentToken()`: head of the remaining list, or the EOF token (the
source clamps the cursor to the last token, which `tokenize` guarantees is
EOF). -/
def cur : List Token → Token
  | [] => eofToken
  | t :: _ => t

/-- `advance()`: move one token forward unless at EOF. -/
def adv : List Token → List Token
  | [] => []
  | t :: rest => if t.ttype = .eof then t :: rest else rest

/-- `isAtEnd()`. -/
def isAtEnd (ts : List Token) : Bool := (cur ts).ttype = .eof

/-- `skipWhitespace()`. -/
def skipWhitespaceT : List Token → List Token
  | [] => []
  | t :: rest => if t.ttype = .whitespace then skipWhitespaceT rest else t :: rest

/-- `skipWhitespaceAndNewlines()`. -/
def skipWSNLT : List Token → List Token
  | [] => []
  | t :: rest =>
    if t.ttype = .whitespace || t.ttype = .newline then skipWSNLT rest else t :: rest

/-- `canStartValue()`. -/
def canStartValue (t : Token) : Bool :=
  t.ttype = .leftBrace || t.ttype = .leftBracket || t.ttype = .string ||
    t.ttype = .multilineString || t.ttype = .number || t.ttype = .boolean ||
    t.ttype = .null || t.ttype = .substitution || t.ttype = .key

/-- `isAtLineEnd()`. -/
def isAtLineEnd (t : Token) : Bool :=
  t.ttype = .newline || t.ttype = .comment || t.ttype = .eof ||
    t.ttype = .rightBrace || t.ttype = .rightBracket || t.ttype = .comma

/-- `parseComment()`: style from whether the raw text starts with `//`. -/
def parseComment (ts : List Token) : CommentNode × List Token :=
  let t := cur ts
  (⟨(match t.raw.data with | '/' :: '/' :: _ => .slash | _ => .hash), t.value⟩, adv ts)

/-- `startsWith` over char lists. -/
def startsWithSeq : List Char → List Char → Bool
  | [], _ => true
  | _ :: _, [] => false
  | a :: as_, b :: bs => a = b && startsWithSeq as_ bs

/-- `String.includes` over char lists. -/
def containsSeq (needle : List Char) : List Char → Bool
  | [] => startsWithSeq needle []
  | c :: rest => startsWithSeq needle (c :: rest) || containsSeq needle rest

/-- `token.raw.includes('${?')` (the optional-substitution test). -/
def rawHasOptMarker (raw : String) : Bool := containsSeq ['$', '\x7b', '?'] raw.data

/-- The `if (this.currentToken().raw === '(') advance()` step of
`parseInclude()` (dead in practice: the lexer never emits a `(` token). -/
def parseIncludeParen (ts : List Token) : List Token :=
  if (cur ts).raw = "(" then adv ts else ts

/-- A `skipWhitespace(); if (raw === ')') advance()` step of `parseInclude()`. -/
def parseIncludeClose (ts : List Token) : List Token :=
  if (cur (skipWhitespaceT ts)).raw = ")" then adv (skipWhitespaceT ts)
  else skipWhitespaceT ts

/-- The `required(` / `file(`/`url(`/`classpath(` wrapper recognition of
`parseInclude()`: returns the required flag, the kind tag and the remaining
tokens. -/
def parseIncludeHeader (ts : List Token) : Bool × IncludeKind × List Token :=
  if (cur ts).ttype = .key then
    if (cur ts).value = "required" then
      (true, .file, parseIncludeParen (skipWhitespaceT (adv ts)))
    else if (cur ts).value = "file" || (cur ts).value = "url" ||
        (cur ts).value = "classpath" then
      (false,
        if (cur ts).value = "url" then .url
        else if (cur ts).value = "classpath" then .classpath
        else .file,
        parseIncludeParen (skipWhitespaceT (adv ts)))
    else (false, .file, ts)
  else (false, .file, ts)

/-- Token position after the wrappers and the following whitespace skip. -/
def parseIncludeAfterHeader (ts0 : List Token) : List Token :=
  skipWhitespaceT (parseIncludeHeader (skipWhitespaceT (adv ts0))).2.2

/-- The quoted path of `parseInclude()` (empty if the current token is not a
string). -/
def parseIncludePath (ts0 : List Token) : String × List Token :=
  if (cur (parseIncludeAfterHeader ts0)).ttype = .string then
    ((cur (parseIncludeAfterHeader ts0)).value, adv (parseIncludeAfterHeader ts0))
  else ("", parseIncludeAfterHeader ts0)

/-- `parseInclude()`: consume `include`, the optional wrappers, the quoted
path, then up to two closing parens. -/
def parseInclude (ts0 : List Token) : Member × List Token :=
  (.incl (parseIncludePath ts0).1
     (parseIncludeHeader (skipWhitespaceT (adv ts0))).1
     (parseIncludeHeader (skipWhitespaceT (adv ts0))).2.1 [] none,
   parseIncludeClose (parseIncludeClose (parseIncludePath ts0).2))

/-- `raw.split('.')` (JavaScript semantics: empty segments are kept). -/
def splitDotAux (acc : List Char) : List Char → List String
  | [] => [⟨acc.reverse⟩]
  | c :: rest =>
    if c = '.' then (⟨acc.reverse⟩ : String) :: splitDotAux [] rest
    else splitDotAux (c :: acc) rest

/-- `raw.split('.')`. -/
def splitDot (s : String) : List String := splitDotAux [] s.data

/-- The dot-continuation loop of `parseKey()`.  Fuelled: with a pathological
token list (an EOF token whose raw text is `"."`) the source loop would spin
forever, since `advance()` refuses to move past EOF. -/
def parseKeyLoop : Nat → List String → String → List Token → Option (List String × String × List Token)
  | 0, _, _, _ => none
  | f + 1, parts, raw, ts =>
    if (cur ts).raw = "." then
      -- the `.` is consumed (raw += '.'), then an optional key/string part
      if (cur (adv ts)).ttype = .key || (cur (adv ts)).ttype = .string then
        parseKeyLoop f (parts ++ [(cur (adv ts)).value])
          (raw ++ "." ++ (cur (adv ts)).raw) (adv (adv ts))
      else
        parseKeyLoop f parts (raw ++ ".") (adv ts)
    else some (parts, raw, ts)

/-- Tail of `parseKey()`: if a single collected part has a dotted raw text,
split the raw text into segments after the fact. -/
def parseKeyFinish : Option (List String × String × List Token) → Option (KeyNode × List Token)
  | none => none
  | some (parts, raw, ts2) =>
    if parts.length = 1 && raw.data.contains '.' then
      some (⟨splitDot raw, raw⟩, ts2)
    else
      some (⟨parts, raw⟩, ts2)

/-- `parseKey()`: first key/string token, dot continuations, and the
post-hoc split of a single dotted raw token into segments. -/
def parseKey (fuel : Nat) (ts : List Token) : Option (KeyNode × List Token) :=
  if (cur ts).ttype = .key || (cur ts).ttype = .string then
    parseKeyFinish (parseKeyLoop fuel [(cur ts).value] (cur ts).raw (adv ts))
  else
    parseKeyFinish (parseKeyLoop fuel [] "" ts)

/-- The separator recognition of `parseField()`: `=`, `:` or `+=` (treated
as `=` for formatting), else the bare-object shorthand `none`. -/
def parseFieldSep (ts : List Token) : Separator × List Token :=
  if (cur ts).ttype = .equals then (.eqSep, adv ts)
  else if (cur ts).ttype = .colon then (.colonSep, adv ts)
  else if (cur ts).ttype = .plusEquals then (.eqSep, adv ts)
  else (.noneSep, ts)

/-- The same-line trailing-comment check of `parseField()`. -/
def parseTrailingComment (ts : List Token) : Option CommentNode × List Token :=
  if (cur ts).ttype = .comment then
    (some (parseComment ts).1, (parseComment ts).2)
  else (none, ts)

/-- `if (currentToken().type === Comma) advance()` in the object and array
loops. -/
def skipComma (ts : List Token) : List Token :=
  if (cur ts).ttype = .comma then adv ts else ts

/-- `collectComments()`: buffer every leading comment (skipping whitespace
and newlines after each one).  Fuelled: one unit per collected comment. -/
def collectCommentsF : Nat → PSt → Option PSt
  | 0, _ => none
  | f + 1, st =>
    if (cur st.toks).ttype = .comment then
      let (c, ts) := parseComment st.toks
      collectCommentsF f ⟨skipWSNLT ts, st.pending ++ [c]⟩
    else some st

mutual

/-- `Parser.parse()`: skip leading trivia, run the document loop, then emit
any still-pending comments as standalone members. -/
def parseDocumentF : Nat → PSt → Option Document
  | 0, _ => none
  | f + 1, st => do
    let (body, st') ← parseDocLoopF f ⟨skipWSNLT st.toks, st.pending⟩ []
    some (body ++ st'.pending.map (fun c => Member.comm c [] none))

/-- The `while (!isAtEnd())` loop of `parse()`. -/
def parseDocLoopF : Nat → PSt → List Member → Option (List Member × PSt)
  | 0, _, _ => none
  | f + 1, st, acc =>
    if isAtEnd st.toks then some (acc, st)
    else do
      let st1 ← collectCommentsF f st
      if isAtEnd st1.toks then some (acc, st1)
      else do
        let (node?, st2) ← parseRootElementF f st1
        match node? with
        | some node =>
          if st2.pending.isEmpty then
            parseDocLoopF f ⟨skipWSNLT st2.toks, st2.pending⟩ (acc ++ [node])
          else
            parseDocLoopF f ⟨skipWSNLT st2.toks, []⟩ (acc ++ [node.withLeading st2.pending])
        | none => parseDocLoopF f ⟨skipWSNLT st2.toks, st2.pending⟩ acc

/-- `parseRootElement()`: include / field / comment by token kind; any other
token is skipped (`advance`) producing no node. -/
def parseRootElementF : Nat → PSt → Option (Option Member × PSt)
  | 0, _ => none
  | f + 1, st =>
    if (cur st.toks).ttype = .incl then
      some (some (parseInclude st.toks).1, ⟨(parseInclude st.toks).2, st.pending⟩)
    else if (cur st.toks).ttype = .key || (cur st.toks).ttype = .string then do
      let (m, st1) ← parseFieldF f st
      some (some m, st1)
    else if (cur st.toks).ttype = .comment then
      some (some (.comm (parseComment st.toks).1 [] none),
        ⟨(parseComment st.toks).2, st.pending⟩)
    else
      some (none, ⟨adv st.toks, st.pending⟩)

/-- `parseField()`: key, optional separator (`+=` folded into `=`), value,
optional same-line trailing comment. -/
def parseFieldF : Nat → PSt → Option (Member × PSt)
  | 0, _ => none
  | f + 1, st => do
    let (key, ts1) ← parseKey f st.toks
    let (value, st1) ←
      parseValueF f ⟨skipWhitespaceT (parseFieldSep (skipWhitespaceT ts1)).2, st.pending⟩
    some (.field key (parseFieldSep (skipWhitespaceT ts1)).1 value []
        (parseTrailingComment (skipWhitespaceT st1.toks)).1 none,
      ⟨(parseTrailingComment (skipWhitespaceT st1.toks)).2, st1.pending⟩)

/-- `parseValue()`: one unit, then greedy same-line concatenation; a single
unit is returned directly, never wrapped. -/
def parseValueF : Nat → PSt → Option (ValueNode × PSt)
  | 0, _ => none
  | f + 1, st => do
    let (first, st) ← parseSingleValueF f st
    let (parts, st) ← parseConcatLoopF f ⟨skipWhitespaceT st.toks, st.pending⟩ [first]
    match parts with
    | [p] => some (p, st)
    | ps => some (.concat (toValueList ps), st)

/-- The concatenation loop of `parseValue()`. -/
def parseConcatLoopF : Nat → PSt → List ValueNode → Option (List ValueNode × PSt)
  | 0, _, _ => none
  | f + 1, st, acc =>
    if canStartValue (cur st.toks) && !isAtLineEnd (cur st.toks) then do
      let (v, st) ← parseSingleValueF f st
      parseConcatLoopF f ⟨skipWhitespaceT st.toks, st.pending⟩ (acc ++ [v])
    else some (acc, st)

/-- `parseSingleValue()`: dispatch on the current token.  The default case
returns an empty string node **without advancing** (as in the source). -/
def parseSingleValueF : Nat → PSt → Option (ValueNode × PSt)
  | 0, _ => none
  | f + 1, st =>
    let t := cur st.toks
    if t.ttype = .leftBrace then parseObjectF f st
    else if t.ttype = .leftBracket then parseArrayF f st
    else if t.ttype = .string then
      some (.str t.value t.raw false, ⟨adv st.toks, st.pending⟩)
    else if t.ttype = .multilineString then
      some (.str t.value t.raw true, ⟨adv st.toks, st.pending⟩)
    else if t.ttype = .number then
      some (.num t.raw, ⟨adv st.toks, st.pending⟩)
    else if t.ttype = .boolean then
      some (.boolean (t.value = "true"), ⟨adv st.toks, st.pending⟩)
    else if t.ttype = .null then
      some (.null, ⟨adv st.toks, st.pending⟩)
    else if t.ttype = .substitution then
      some (.subst t.value (rawHasOptMarker t.raw) t.raw, ⟨adv st.toks, st.pending⟩)
    else if t.ttype = .key then
      some (.str t.value t.raw false, ⟨adv st.toks, st.pending⟩)
    else
      some (.str "" "" false, st)

/-- `parseObject()`: consume `{`, run the member loop, flush leftover
pending comments into the field list, clear the buffer, consume `}`. -/
def parseObjectF : Nat → PSt → Option (ValueNode × PSt)
  | 0, _ => none
  | f + 1, st => do
    let (fields, st') ← parseObjLoopF f ⟨skipWSNLT (adv st.toks), st.pending⟩ []
    some (.obj (toMemberList (fields ++ st'.pending.map (fun c => Member.comm c [] none))),
      ⟨if (cur st'.toks).ttype = .rightBrace then adv st'.toks else st'.toks, []⟩)

/-- The member loop of `parseObject()`. -/
def parseObjLoopF : Nat → PSt → List Member → Option (List Member × PSt)
  | 0, _, _ => none
  | f + 1, st, acc =>
    if isAtEnd st.toks || (cur st.toks).ttype = .rightBrace then some (acc, st)
    else do
      let st1 ← collectCommentsF f st
      if (cur st1.toks).ttype = .rightBrace then some (acc, st1)
      else do
        let (node?, st2) ← parseRootElementF f st1
        match node? with
        | some node =>
          if st2.pending.isEmpty then
            parseObjLoopF f
              ⟨skipWSNLT (skipComma (skipWhitespaceT st2.toks)), st2.pending⟩ (acc ++ [node])
          else
            parseObjLoopF f
              ⟨skipWSNLT (skipComma (skipWhitespaceT st2.toks)), []⟩
              (acc ++ [node.withLeading st2.pending])
        | none =>
          parseObjLoopF f
            ⟨skipWSNLT (skipComma (skipWhitespaceT st2.toks)), st2.pending⟩ acc

/-- `parseArray()`: consume `[`, run the element loop, consume `]`.  Unlike
`parseObject`, leftover pending comments are *not* flushed or cleared. -/
def parseArrayF : Nat → PSt → Option (ValueNode × PSt)
  | 0, _ => none
  | f + 1, st => do
    let (els, st') ← parseArrLoopF f ⟨skipWSNLT (adv st.toks), st.pending⟩ []
    some (.arr (toElementList els),
      ⟨if (cur st'.toks).ttype = .rightBracket then adv st'.toks else st'.toks, st'.pending⟩)

/-- The element loop of `parseArray()`.  When the current token cannot start
a value and is not a comma (nor a comment or `]`), no token is consumed and
the loop repeats on an identical state: the source spins forever there, and
this model returns `none` at every fuel. -/
def parseArrLoopF : Nat → PSt → List Element → Option (List Element × PSt)
  | 0, _, _ => none
  | f + 1, st, acc =>
    if isAtEnd st.toks || (cur st.toks).ttype = .rightBracket then some (acc, st)
    else do
      let st1 ← collectCommentsF f st
      if (cur st1.toks).ttype = .rightBracket then some (acc, st1)
      else
        -- pending comments become elements and the buffer is cleared
        if canStartValue (cur st1.toks) then do
          let (v, st2) ← parseValueF f ⟨st1.toks, []⟩
          parseArrLoopF f
            ⟨skipWSNLT (skipComma (skipWhitespaceT st2.toks)), st2.pending⟩
            ((acc ++ st1.pending.map Element.comm) ++ [Element.val v])
        else
          parseArrLoopF f
            ⟨skipWSNLT (skipComma (skipWhitespaceT st1.toks)), []⟩
            (acc ++ st1.pending.map Element.comm)

end

/-- `parse(source)` (parser.ts module function): tokenize then parse. -/
def parse (fuel : Nat) (source : String) : Option Document :=
  parseDocumentF fuel ⟨tokenize source, []⟩

/-- `format(input)` (index.ts): parse then render. -/
def format (fuel : Nat) (input : String) : Option String :=
  (parse fuel input).map formatAst

/-- `check(input)` (index.ts): true iff formatting reproduces the input
byte-for-byte; an internal failure yields `false` (the `catch` branch). -/
def check (fuel : Nat) (input : String) : Bool :=
  match format fuel input with
  | some formatted => input == formatted
  | none => false

/-! ## Claim-support definitions -/

/-- The token state the array loop gets stuck on: `=`, `]`, EOF. -/
def stuckToks : List Token := [⟨.equals, "=", "="⟩, ⟨.rightBracket, "]", "]"⟩, eofToken]

/-- Tokens of the array value `[=]`. -/
def arrToks : List Token := ⟨.leftBracket, "[", "["⟩ :: stuckToks

/-- Tokens of the whole input `a = [=]`. -/
def fieldToks : List Token :=
  ⟨.key, "a", "a"⟩ :: ⟨.whitespace, " ", " "⟩ :: ⟨.equals, "=", "="⟩ ::
    ⟨.whitespace, " ", " "⟩ :: arrToks


/-- The `ElementList` as a plain list, for stating the rendering shapes. -/
def elementsOf : ElementList → List Element
  | .nil => []
  | .cons e rest => e :: elementsOf rest

/-- Rendering of one array element (comment or value), as the formatter
does it. -/
def renderElement (lvl : Nat) : Element → String
  | .comm c => formatComment c
  | .val v => formatValue lvl v

/-- Concatenation of rendered lines. -/
def strJoin : List String → String
  | [] => ""
  | s :: rest => s ++ strJoin rest

/-- `", "`-separated join (the claim's single-line shape). -/
def joinCommaSpace : List String → String
  | [] => ""
  | [s] => s
  | s :: rest => s ++ ", " ++ joinCommaSpace rest

/-- Modelled from the claim's words: the sum of the per-element estimates. -/
def sumElementEstimates : ElementList → Nat
  | .nil => 0
  | .cons e rest => estimateElementLength e + sumElementEstimates rest

/-- Modelled from the claim's words: bracket constant (2) plus per-element
estimates plus 2 per separating comma-space. -/
def specArrayWidth (els : ElementList) : Nat :=
  2 + sumElementEstimates els + 2 * (els.length - 1)


/-- Is every character a newline? -/
def allNL (l : List Char) : Bool := l.all (fun c => c = '\n')

/-- Length of the maximal trailing newline run: the whole list if it is all
newlines, otherwise the trailing run of the tail.  `trailNLRun l = 1` states
the claim's "ends with exactly one trailing newline". -/
def trailNLRun : List Char → Nat
  | [] => 0
  | c :: rest => if allNL (c :: rest) then (c :: rest).length else trailNLRun rest

/-- A string is nonempty and its last character is not a newline.  This is
the shape every rendered member has, and what makes the rendered document
end in exactly one newline. -/
def endsNonNL (s : String) : Prop :=
  s.data ≠ [] ∧ s.data.getLast? ≠ some '\n'

instance (s : String) : Decidable (endsNonNL s) :=
  inferInstanceAs (Decidable (s.data ≠ [] ∧ s.data.getLast? ≠ some '\n'))

/-- What the `/\n\x7b3,\x7d/g → '\n\n'` pass does to the length of a
newline run: three or more become two. -/
def capRun (n : Nat) : Nat := if 3 ≤ n then 2 else n

/-- The trailing newline run of `'\n'` repeated `k` times followed by `l`
(the input that `collapseRun k l` is processing). -/
def runWith (k : Nat) (l : List Char) : Nat :=
  if allNL l then k + l.length else trailNLRun l


/-! ### Structural invariants of parsed documents

`concatInv*`: every `Concatenation` node has at least two parts (claim C9).

`textInv*`: every comment text is newline-free, every number keeps a
non-empty newline-free raw literal, and every concatenation is non-empty.
These hold for every document the parser produces from `tokenize` output and
are what makes the formatter end each member's line properly (claim C8). -/

/-- `'\n'` does not occur in a string. -/
def noNL (s : String) : Prop := '\n' ∉ s.data

/-- Token-level invariant established by the lexer: comment tokens carry
newline-free text, number tokens carry a non-empty newline-free raw. -/
def tokOK (t : Token) : Prop :=
  (t.ttype = .comment → noNL t.value) ∧
    (t.ttype = .number → t.raw ≠ "" ∧ noNL t.raw)

/-- All tokens of a list satisfy `tokOK`. -/
def toksOK (ts : List Token) : Prop := ∀ t ∈ ts, tokOK t

/-- A comment node with newline-free text. -/
def comOK (c : CommentNode) : Prop := noNL c.value

/-- All comments of a list satisfy `comOK`. -/
def comsOK (cs : List CommentNode) : Prop := ∀ c ∈ cs, comOK c

mutual

/-- Every concatenation below this value has at least two parts. -/
def concatInvV : ValueNode → Prop
  | .obj fs => concatInvML fs
  | .arr es => concatInvEL es
  | .concat ps => 2 ≤ ps.length ∧ concatInvVL ps
  | _ => True

def concatInvVL : ValueList → Prop
  | .nil => True
  | .cons v rest => concatInvV v ∧ concatInvVL rest

def concatInvEL : ElementList → Prop
  | .nil => True
  | .cons (.val v) rest => concatInvV v ∧ concatInvEL rest
  | .cons (.comm _) rest => concatInvEL rest

def concatInvM : Member → Prop
  | .field _ _ v _ _ _ => concatInvV v
  | _ => True

def concatInvML : MemberList → Prop
  | .nil => True
  | .cons m rest => concatInvM m ∧ concatInvML rest

end

/-- Every concatenation in the document has at least two parts. -/
def concatInvDoc (d : List Member) : Prop := ∀ m ∈ d, concatInvM m

mutual

/-- Texts below this value are well formed: number raws non-empty and
newline-free, comment texts newline-free, concatenations non-empty. -/
def textInvV : ValueNode → Prop
  | .num raw => raw ≠ "" ∧ noNL raw
  | .obj fs => textInvML fs
  | .arr es => textInvEL es
  | .concat ps => ps ≠ .nil ∧ textInvVL ps
  | _ => True

def textInvVL : ValueList → Prop
  | .nil => True
  | .cons v rest => textInvV v ∧ textInvVL rest

def textInvEL : ElementList → Prop
  | .nil => True
  | .cons (.val v) rest => textInvV v ∧ textInvEL rest
  | .cons (.comm c) rest => comOK c ∧ textInvEL rest

def textInvM : Member → Prop
  | .field _ _ v leading trailing _ =>
    textInvV v ∧ comsOK leading ∧ (∀ tc, trailing = some tc → comOK tc)
  | .incl _ _ _ leading _ => comsOK leading
  | .comm c leading _ => comOK c ∧ comsOK leading

def textInvML : MemberList → Prop
  | .nil => True
  | .cons m rest => textInvM m ∧ textInvML rest

end

/-- All members of the document are text-well-formed. -/
def textInvDoc (d : List Member) : Prop := ∀ m ∈ d, textInvM m

/-- State invariant threaded through the parser. -/
def stOK (st : PSt) : Prop := toksOK st.toks ∧ comsOK st.pending


/-- Element-wise form of `concatInvEL`. -/
def concatInvE : Element → Prop
  | .val v => concatInvV v
  | .comm _ => True

/-- Element-wise form of `textInvEL`. -/
def textInvE : Element → Prop
  | .val v => textInvV v
  | .comm c => comOK c

/-! ### Per-function invariant statements, one for each fuelled parser
function.  `parserInv` below proves all of them simultaneously by induction
on the fuel. -/

/-- Invariant of `parseDocumentF` at a given fuel. -/
def DocInvP (f : Nat) : Prop :=
  ∀ st doc, parseDocumentF f st = some doc →
    concatInvDoc doc ∧ (stOK st → textInvDoc doc)

/-- Invariant of `parseDocLoopF` at a given fuel. -/
def DocLoopInvP (f : Nat) : Prop :=
  ∀ st acc out, parseDocLoopF f st acc = some out →
    (concatInvDoc acc → concatInvDoc out.1) ∧
    (stOK st → textInvDoc acc → textInvDoc out.1 ∧ stOK out.2)

/-- Invariant of `parseRootElementF` at a given fuel. -/
def RootInvP (f : Nat) : Prop :=
  ∀ st out, parseRootElementF f st = some out →
    (∀ m, out.1 = some m → concatInvM m) ∧
    (stOK st → (∀ m, out.1 = some m → textInvM m) ∧ stOK out.2)

/-- Invariant of `parseFieldF` at a given fuel. -/
def FieldInvP (f : Nat) : Prop :=
  ∀ st out, parseFieldF f st = some out →
    concatInvM out.1 ∧ (stOK st → textInvM out.1 ∧ stOK out.2)

/-- Invariant of `parseValueF` at a given fuel. -/
def ValueInvP (f : Nat) : Prop :=
  ∀ st out, parseValueF f st = some out →
    concatInvV out.1 ∧ (stOK st → textInvV out.1 ∧ stOK out.2)

/-- Invariant of `parseConcatLoopF` at a given fuel. -/
def ConcatLoopInvP (f : Nat) : Prop :=
  ∀ st acc out, parseConcatLoopF f st acc = some out →
    (acc.length ≤ out.1.length ∧
      ((∀ v ∈ acc, concatInvV v) → ∀ v ∈ out.1, concatInvV v)) ∧
    (stOK st → (∀ v ∈ acc, textInvV v) → (∀ v ∈ out.1, textInvV v) ∧ stOK out.2)

/-- Invariant of `parseSingleValueF` at a given fuel. -/
def SingleInvP (f : Nat) : Prop :=
  ∀ st out, parseSingleValueF f st = some out →
    concatInvV out.1 ∧ (stOK st → textInvV out.1 ∧ stOK out.2)

/-- Invariant of `parseObjectF` at a given fuel. -/
def ObjInvP (f : Nat) : Prop :=
  ∀ st out, parseObjectF f st = some out →
    concatInvV out.1 ∧ (stOK st → textInvV out.1 ∧ stOK out.2)

/-- Invariant of `parseObjLoopF` at a given fuel. -/
def ObjLoopInvP (f : Nat) : Prop :=
  ∀ st acc out, parseObjLoopF f st acc = some out →
    ((∀ m ∈ acc, concatInvM m) → ∀ m ∈ out.1, concatInvM m) ∧
    (stOK st → (∀ m ∈ acc, textInvM m) → (∀ m ∈ out.1, textInvM m) ∧ stOK out.2)

/-- Invariant of `parseArrayF` at a given fuel. -/
def ArrInvP (f : Nat) : Prop :=
  ∀ st out, parseArrayF f st = some out →
    concatInvV out.1 ∧ (stOK st → textInvV out.1 ∧ stOK out.2)

/-- Invariant of `parseArrLoopF` at a given fuel. -/
def ArrLoopInvP (f : Nat) : Prop :=
  ∀ st acc out, parseArrLoopF f st acc = some out →
    ((∀ e ∈ acc, concatInvE e) → ∀ e ∈ out.1, concatInvE e) ∧
    (stOK st → (∀ e ∈ acc, textInvE e) → (∀ e ∈ out.1, textInvE e) ∧ stOK out.2)

/-! ## Claims -/

/-- C1 (the claim fails on the code): `format` is not idempotent.  On
`'a. = 1'` the key `a.` is split into segments `a` and the empty segment,
which renders as `a."" = 1`; re-parsing that output binds the empty quoted
string as the field's value (there is no separator token between `a.` and
`""`), so the second pass drops the `1` and produces `a."" = ""` instead of
returning its input unchanged. -/
theorem format_not_idempotent_on_dotted_key :
    format 300 "a. = 1" = some "a.\"\" = 1\n" ∧
    format 300 "a.\"\" = 1\n" = some "a.\"\" = \"\"\n" ∧
    ("a.\"\" = 1\n" : String) ≠ "a.\"\" = \"\"\n" := by
  refine ⟨by decide, by decide, by decide⟩

/-- C2: `check` agrees with byte-for-byte equality of the `format` output
with the input, and returns `false` (rather than propagating the failure)
whenever the pipeline produces no output. -/
theorem check_agrees_with_format_fixed_point (fuel : Nat) (s : String) :
    (∀ out, format fuel s = some out → (check fuel s = true ↔ out = s)) ∧
    (format fuel s = none → check fuel s = false) := by
  constructor
  · intro out h
    have hc : check fuel s = (s == out) := by unfold check; rw [h]
    rw [hc, beq_iff_eq]
    exact eq_comm
  · intro h
    unfold check; rw [h]

/-- Witness for C2 at a concrete input: `'key = "value"\n'` is a fixed
point of `format`, and `check` accepts it. -/
theorem check_agrees_witness : check 300 "key = \"value\"\n" = true :=
  ((check_agrees_with_format_fixed_point 300 "key = \"value\"\n").1
    "key = \"value\"\n" (by decide)).mpr rfl

/-- C4 (the claim fails on the code): the parser never records
`precedingBlankLines` (no assignment to it exists in parser.ts), so the
formatter's blank-line branch never fires: three source blank lines between
two top-level fields yield *zero* output blank lines, not one.  The repo's
own tests (`parser.test.ts` "blank line tracking", formatter tests
"should preserve single blank line between keys") expect the claimed
behaviour. -/
theorem blank_lines_dropped_not_collapsed_to_one :
    format 300 "a = 1\n\n\n\nb = 2" = some "a = 1\nb = 2\n" := by decide

/-- C5 (the claim fails on the code): the formatter renders the
concatenation `60 seconds` part by part (`60 "seconds"`), not as the single
quoted string `"60 seconds"` that the claim (and the repo's formatter test
"fix #1: quote concatenations") expects; likewise `60s` becomes `60 "s"`,
with a space the source never had. -/
theorem concatenation_rendered_per_part :
    format 300 "timeout = 60 seconds" = some "timeout = 60 \"seconds\"\n" ∧
    format 300 "keep-alive-time = 60s" = some "keep-alive-time = 60 \"s\"\n" := by
  refine ⟨by decide, by decide⟩

/-- C6 (the claim fails on the code): `formatConcatenation` inserts no space
next to a substitution part, so `${base.config} { ... }` renders as
`${base.config}{`, losing the space the claim (and the repo's formatter test
"fix #5") requires. -/
theorem substitution_brace_space_dropped :
    format 300 "config = $\x7bbase.config\x7d \x7b key = \"value\" \x7d" =
      some "config = $\x7bbase.config\x7d\x7b\n  key = \"value\"\n\x7d\n" := by decide

/-- C10: a bare key with no separator and no value parses with the default
empty-string value (the parser's fallback when no token can start a value)
and formats as `key = ""` plus the trailing newline. -/
theorem format_bare_key_empty_string :
    format 300 "key" = some "key = \"\"\n" := by decide

/-! ### C3: the pipeline is not total

On `'a = [=]'` the source `parseArray` loop never consumes the `=` token
(it can neither start a value nor is it a comma, comment or `]`), so
`format` never returns.  In the fuelled model: no amount of fuel produces a
result.  The lemmas below walk the concrete call chain down to the stuck
loop state. -/

theorem arrLoop_stuck : ∀ fuel pend acc,
    parseArrLoopF fuel ⟨stuckToks, pend⟩ acc = none := by
  intro fuel
  induction fuel with
  | zero => intro pend acc; rfl
  | succ g ih =>
    intro pend acc
    match g, ih with
    | 0, _ => rfl
    | h + 1, ih =>
      calc parseArrLoopF (h + 1 + 1) ⟨stuckToks, pend⟩ acc
          = parseArrLoopF (h + 1) ⟨stuckToks, []⟩ (acc ++ pend.map Element.comm) := rfl
        _ = none := ih [] (acc ++ pend.map Element.comm)

theorem array_stuck : ∀ fuel pend, parseArrayF fuel ⟨arrToks, pend⟩ = none := by
  intro fuel pend
  cases fuel with
  | zero => rfl
  | succ g =>
    calc parseArrayF (g + 1) ⟨arrToks, pend⟩
        = (parseArrLoopF g ⟨stuckToks, pend⟩ []).bind
            (fun r =>
              some (.arr (toElementList r.1),
                ⟨if (cur r.2.toks).ttype = .rightBracket then adv r.2.toks else r.2.toks,
                  r.2.pending⟩)) := rfl
      _ = none := by rw [arrLoop_stuck g pend []]; rfl

theorem singleValue_stuck : ∀ fuel pend,
    parseSingleValueF fuel ⟨arrToks, pend⟩ = none := by
  intro fuel pend
  cases fuel with
  | zero => rfl
  | succ g =>
    calc parseSingleValueF (g + 1) ⟨arrToks, pend⟩
        = parseArrayF g ⟨arrToks, pend⟩ := rfl
      _ = none := array_stuck g pend

theorem value_stuck : ∀ fuel pend, parseValueF fuel ⟨arrToks, pend⟩ = none := by
  intro fuel pend
  cases fuel with
  | zero => rfl
  | succ g =>
    show (parseSingleValueF g ⟨arrToks, pend⟩).bind _ = none
    rw [singleValue_stuck g pend]
    rfl

theorem field_stuck : ∀ fuel pend, parseFieldF fuel ⟨fieldToks, pend⟩ = none := by
  intro fuel pend
  cases fuel with
  | zero => rfl
  | succ g =>
    match g with
    | 0 => rfl
    | h + 1 =>
      calc parseFieldF (h + 1 + 1) ⟨fieldToks, pend⟩
          = (parseValueF (h + 1) ⟨arrToks, pend⟩).bind
              (fun r =>
                let ts := skipWhitespaceT r.2.toks
                let (trailing, ts) :=
                  if (cur ts).ttype = .comment then
                    let (c, ts') := parseComment ts
                    (some c, ts')
                  else (none, ts)
                some (.field ⟨["a"], "a"⟩ .eqSep r.1 [] trailing none, ⟨ts, r.2.pending⟩)) := rfl
        _ = none := by rw [value_stuck (h + 1) pend]; rfl

theorem rootElement_stuck : ∀ fuel pend,
    parseRootElementF fuel ⟨fieldToks, pend⟩ = none := by
  intro fuel pend
  cases fuel with
  | zero => rfl
  | succ g =>
    show (parseFieldF g ⟨fieldToks, pend⟩).bind _ = none
    rw [field_stuck g pend]
    rfl

theorem docLoop_stuck : ∀ fuel pend acc,
    parseDocLoopF fuel ⟨fieldToks, pend⟩ acc = none := by
  intro fuel pend acc
  cases fuel with
  | zero => rfl
  | succ g =>
    match g with
    | 0 => rfl
    | h + 1 =>
      show (parseRootElementF (h + 1) ⟨fieldToks, pend⟩).bind _ = none
      rw [rootElement_stuck (h + 1) pend]
      rfl

/-- C3 (the claim fails on the code): `format` does not terminate on every
input.  On `'a = [=]'` the `parseArray` loop of the source makes no progress
(the `=` token cannot start a value and is not a comma, comment or `]`, and
nothing advances the cursor), so the source spins forever; in the fuelled
model, no fuel whatsoever yields a result.  This contradicts the spec's
"effectively total" contract and the parser's own stated design ("unknown
token kinds at a position expecting a member are skipped", which
`parseRootElement` implements but the array loop does not). -/
theorem format_diverges_on_stuck_array : ∀ fuel, format fuel "a = [=]" = none := by
  intro fuel
  have htok : tokenize "a = [=]" = fieldToks := by decide
  show (parseDocumentF fuel ⟨tokenize "a = [=]", []⟩).map formatAst = none
  rw [htok]
  cases fuel with
  | zero => rfl
  | succ g =>
    show ((parseDocLoopF g ⟨skipWSNLT fieldToks, []⟩ []).bind _).map formatAst = none
    rw [show skipWSNLT fieldToks = fieldToks from rfl, docLoop_stuck g [] []]
    rfl

/-! ### C7: array rendering

The spec-side formulations below follow the claim's wording: the estimated
width is the bracket constant plus the per-element estimates plus two
characters per separating comma-space; a single-line rendering is the
comma-space join of the element renderings; a multi-line rendering puts one
element per indented line with no trailing comma. -/

theorem arrayWidthFrom_false : ∀ els : ElementList,
    arrayWidthFrom false els = sumElementEstimates els + 2 * els.length
  | .nil => rfl
  | .cons e rest => by
    simp [arrayWidthFrom, sumElementEstimates, ElementList.length,
      arrayWidthFrom_false rest]
    omega

theorem arrayWidthFrom_true (els : ElementList) (h : els ≠ .nil) :
    2 + arrayWidthFrom true els = specArrayWidth els := by
  cases els with
  | nil => exact absurd rfl h
  | cons e rest =>
    simp [arrayWidthFrom, specArrayWidth, sumElementEstimates,
      ElementList.length, arrayWidthFrom_false]
    omega

theorem formatArraySingle_false (lvl : Nat) : ∀ els : ElementList,
    formatArraySingle lvl false els =
      strJoin ((elementsOf els).map fun e => ", " ++ renderElement lvl e)
  | .nil => rfl
  | .cons e rest => by
    cases e <;>
      simp only [formatArraySingle, elementsOf, List.map, strJoin,
        formatArraySingle_false lvl rest, renderElement] <;>
      simp [String.append_assoc]

theorem formatArraySingle_true (lvl : Nat) (els : ElementList) :
    formatArraySingle lvl true els =
      joinCommaSpace ((elementsOf els).map (renderElement lvl)) := by
  cases els with
  | nil => rfl
  | cons e rest =>
    have hrest := formatArraySingle_false lvl rest
    have hjoin : ∀ (l : List Element),
        joinCommaSpace (l.map (renderElement lvl)) =
          (match l with
           | [] => ""
           | x :: xs =>
             renderElement lvl x ++ strJoin (xs.map fun y => ", " ++ renderElement lvl y)) := by
      intro l
      induction l with
      | nil => rfl
      | cons x xs ihx =>
        cases xs with
        | nil => simp [joinCommaSpace, strJoin]
        | cons y ys =>
          simp only [List.map, joinCommaSpace] at ihx ⊢
          rw [ihx]
          simp [strJoin, String.append_assoc]
    rw [hjoin]
    cases e <;>
      simp only [formatArraySingle, elementsOf, renderElement, hrest] <;>
      simp [String.append_assoc]

theorem formatArrayMulti_shape (lvl : Nat) : ∀ els : ElementList,
    formatArrayMulti lvl els =
      strJoin ((elementsOf els).map fun e =>
        writeIndent lvl ++ renderElement lvl e ++ "\n")
  | .nil => rfl
  | .cons e rest => by
    cases e <;>
      simp only [formatArrayMulti, elementsOf, List.map, strJoin,
        formatArrayMulti_shape lvl rest, renderElement] <;>
      simp [String.append_assoc]

/-- C7: array rendering.  The empty array renders `[]`.  A non-empty array
with no comment elements fits on one line exactly when the claim's estimated
width (bracket constant + per-element estimates + 2 per separating
comma-space) is under 80; in that case the rendering is the single-line
comma-space join.  Any non-empty array containing a standalone comment
element, or whose estimate is at or above 80, renders multi-line with one
element per indented line and no trailing comma. -/
theorem array_rendering_spec (lvl : Nat) :
    (formatValue lvl (.arr .nil) = "[]") ∧
    (∀ els : ElementList, els ≠ .nil → arrayHasComment els = false →
      (canArrayFitOnLine els = true ↔ specArrayWidth els < 80)) ∧
    (∀ els : ElementList, els ≠ .nil →
      (arrayHasComment els = true ∨ 80 ≤ specArrayWidth els) →
      formatValue lvl (.arr els) =
        "[\n" ++
          strJoin ((elementsOf els).map fun e =>
            writeIndent (lvl + 1) ++ renderElement (lvl + 1) e ++ "\n") ++
          writeIndent lvl ++ "]") ∧
    (∀ els : ElementList, els ≠ .nil → arrayHasComment els = false →
      specArrayWidth els < 80 →
      formatValue lvl (.arr els) =
        "[" ++ joinCommaSpace ((elementsOf els).map (renderElement lvl)) ++ "]") := by
  have hfit : ∀ els : ElementList, els ≠ .nil →
      (canArrayFitOnLine els = true ↔
        arrayHasComment els = false ∧ specArrayWidth els < 80) := by
    intro els hne
    unfold canArrayFitOnLine
    cases hc : arrayHasComment els with
    | true => simp
    | false =>
      rw [← arrayWidthFrom_true els hne]
      simp
  refine ⟨rfl, ?_, ?_, ?_⟩
  · intro els hne hc
    rw [hfit els hne]
    simp [hc]
  · intro els hne hcase
    have hnofit : canArrayFitOnLine els = false := by
      rcases hcase with hc | hw
      · cases h : canArrayFitOnLine els with
        | false => rfl
        | true => exact absurd (((hfit els hne).mp h).1) (by simp [hc])
      · cases h : canArrayFitOnLine els with
        | false => rfl
        | true =>
          have := ((hfit els hne).mp h).2
          omega
    cases els with
    | nil => exact absurd rfl hne
    | cons e rest =>
      show (if canArrayFitOnLine (.cons e rest) then
          "[" ++ formatArraySingle lvl true (.cons e rest) ++ "]"
        else
          "[\n" ++ formatArrayMulti (lvl + 1) (.cons e rest) ++ writeIndent lvl ++ "]") = _
      rw [hnofit]
      simp only [Bool.false_eq_true, if_false]
      rw [formatArrayMulti_shape]
  · intro els hne hc hw
    have hdofit : canArrayFitOnLine els = true := (hfit els hne).mpr ⟨hc, hw⟩
    cases els with
    | nil => exact absurd rfl hne
    | cons e rest =>
      show (if canArrayFitOnLine (.cons e rest) then
          "[" ++ formatArraySingle lvl true (.cons e rest) ++ "]"
        else
          "[\n" ++ formatArrayMulti (lvl + 1) (.cons e rest) ++ writeIndent lvl ++ "]") = _
      rw [hdofit]
      simp only [if_true]
      rw [formatArraySingle_true]

/-! ### Suffix and invariant-preservation lemmas for the parser helpers -/

theorem adv_suffix (ts : List Token) : adv ts <:+ ts := by
  cases ts with
  | nil => exact List.suffix_refl _
  | cons t rest =>
    show (if t.ttype = .eof then t :: rest else rest) <:+ t :: rest
    split
    · exact List.suffix_refl _
    · exact List.suffix_cons t rest

theorem skipWhitespaceT_suffix : ∀ ts : List Token, skipWhitespaceT ts <:+ ts := by
  intro ts
  induction ts with
  | nil => exact List.suffix_refl _
  | cons t rest ih =>
    unfold skipWhitespaceT
    split
    · exact ih.trans (List.suffix_cons t rest)
    · exact List.suffix_refl _

theorem skipWSNLT_suffix : ∀ ts : List Token, skipWSNLT ts <:+ ts := by
  intro ts
  induction ts with
  | nil => exact List.suffix_refl _
  | cons t rest ih =>
    unfold skipWSNLT
    split
    · exact ih.trans (List.suffix_cons t rest)
    · exact List.suffix_refl _

theorem toksOK_of_suffix {ts ts' : List Token} (h : ts' <:+ ts) (hok : toksOK ts) :
    toksOK ts' := fun t ht => hok t (h.subset ht)

theorem tokOK_eofToken : tokOK eofToken := by
  constructor <;> intro h <;> simp [eofToken] at h

/-! ### The lexer establishes the token invariant: comment values are
newline-free, number raws are nonempty and newline-free. -/

theorem noNL_takeWhile_ne (l : List Char) :
    '\n' ∉ l.takeWhile (fun x => x ≠ '\n') := by
  intro h
  have := List.mem_takeWhile_imp h
  simp at this

theorem mem_scanNumberSign : ∀ cs : List Char, ∀ a ∈ (scanNumberSign cs).1, a = '-' := by
  intro cs a ha
  unfold scanNumberSign at ha
  split at ha
  · exact List.mem_singleton.mp ha
  · exact absurd ha (List.not_mem_nil a)

theorem mem_scanNumberFrac : ∀ cs : List Char, ∀ a ∈ (scanNumberFrac cs).1,
    a = '.' ∨ isDigitChar a = true := by
  intro cs a ha
  unfold scanNumberFrac at ha
  split at ha
  · split at ha
    · rcases List.mem_cons.mp ha with h | h
      · exact Or.inl h
      · exact Or.inr (List.mem_takeWhile_imp h)
    · exact absurd ha (List.not_mem_nil a)
  · exact absurd ha (List.not_mem_nil a)

theorem mem_scanNumberExpoSign : ∀ cs : List Char, ∀ a ∈ (scanNumberExpoSign cs).1,
    a = '+' ∨ a = '-' := by
  intro cs a ha
  unfold scanNumberExpoSign at ha
  split at ha
  · split at ha
    · next hcond =>
      rcases List.mem_singleton.mp ha with rfl
      simpa using hcond
    · exact absurd ha (List.not_mem_nil a)
  · exact absurd ha (List.not_mem_nil a)

theorem mem_scanNumberExpo : ∀ cs : List Char, ∀ a ∈ (scanNumberExpo cs).1,
    isDigitChar a = true ∨ a = 'e' ∨ a = 'E' ∨ a = '+' ∨ a = '-' := by
  intro cs a ha
  unfold scanNumberExpo at ha
  split at ha
  · split at ha
    · next hcond =>
      rcases List.mem_cons.mp ha with h | h
      · subst h
        rcases (by simpa using hcond : a = 'e' ∨ a = 'E') with h | h
        · exact Or.inr (Or.inl h)
        · exact Or.inr (Or.inr (Or.inl h))
      · rcases List.mem_append.mp h with h | h
        · rcases mem_scanNumberExpoSign _ a h with h | h
          · exact Or.inr (Or.inr (Or.inr (Or.inl h)))
          · exact Or.inr (Or.inr (Or.inr (Or.inr h)))
        · exact Or.inl (List.mem_takeWhile_imp h)
    · exact absurd ha (List.not_mem_nil a)
  · exact absurd ha (List.not_mem_nil a)

theorem mem_scanNumber_raw : ∀ cs : List Char, ∀ a ∈ (scanNumber cs).1,
    isDigitChar a = true ∨ a = '-' ∨ a = '.' ∨ a = 'e' ∨ a = 'E' ∨ a = '+' := by
  intro cs a ha
  unfold scanNumber at ha
  rcases List.mem_append.mp ha with h | h
  · rcases List.mem_append.mp h with h | h
    · rcases List.mem_append.mp h with h | h
      · exact Or.inr (Or.inl (mem_scanNumberSign _ a h))
      · exact Or.inl (List.mem_takeWhile_imp h)
    · rcases mem_scanNumberFrac _ a h with h | h
      · exact Or.inr (Or.inr (Or.inl h))
      · exact Or.inl h
  · rcases mem_scanNumberExpo _ a h with h | h | h | h | h
    · exact Or.inl h
    · exact Or.inr (Or.inr (Or.inr (Or.inl h)))
    · exact Or.inr (Or.inr (Or.inr (Or.inr (Or.inl h))))
    · exact Or.inr (Or.inr (Or.inr (Or.inr (Or.inr h))))
    · exact Or.inr (Or.inl h)

theorem scanNumber_raw_noNL (cs : List Char) : '\n' ∉ (scanNumber cs).1 := by
  intro h
  rcases mem_scanNumber_raw cs '\n' h with h | h | h | h | h | h
  · exact absurd h (by decide)
  · exact absurd h (by decide)
  · exact absurd h (by decide)
  · exact absurd h (by decide)
  · exact absurd h (by decide)
  · exact absurd h (by decide)

theorem scanNumber_ne_nil (c : Char) (rest : List Char)
    (h : isDigitChar c = true ∨ c = '-') : (scanNumber (c :: rest)).1 ≠ [] := by
  by_cases hc : c = '-'
  · subst hc
    intro hn
    simp [scanNumber, scanNumberSign] at hn
  · rcases h with h | h
    · have h1 : scanNumberSign (c :: rest) = ([], c :: rest) := by
        unfold scanNumberSign
        split
        · next heq =>
          injection heq with heq1
          exact absurd heq1 hc
        · rfl
      intro hn
      unfold scanNumber at hn
      rw [h1] at hn
      dsimp only at hn
      rw [List.takeWhile_cons_of_pos h] at hn
      simp at hn
    · exact absurd h hc

theorem scanNumber_tokOK (c : Char) (rest : List Char)
    (h : isDigitChar c = true ∨ c = '-') :
    (⟨(scanNumber (c :: rest)).1⟩ : String) ≠ "" ∧
      noNL ⟨(scanNumber (c :: rest)).1⟩ := by
  constructor
  · intro hs
    exact scanNumber_ne_nil c rest h (congrArg String.data hs)
  · exact scanNumber_raw_noNL _

theorem scanStep_ok (c : Char) (rest : List Char) (t : Token) (r : List Char)
    (h : scanStep c rest = (some t, r)) : tokOK t := by
  unfold scanStep at h
  by_cases g1 : isWsChar c = true
  · rw [if_pos g1] at h
    dsimp only at h
    injection h with h1 h2
    injection h1 with h1
    rw [← h1]
    exact ⟨fun hh => (nomatch hh), fun hh => (nomatch hh)⟩
  rw [if_neg g1] at h
  by_cases g2 : c = '\n'
  · rw [if_pos g2] at h
    injection h with h1 h2
    injection h1 with h1
    rw [← h1]
    exact ⟨fun hh => (nomatch hh), fun hh => (nomatch hh)⟩
  rw [if_neg g2] at h
  by_cases g3 : (c = '/' && nextIs '/' rest) = true
  · rw [if_pos g3] at h
    dsimp only at h
    injection h with h1 h2
    injection h1 with h1
    rw [← h1]
    exact ⟨fun _ => noNL_takeWhile_ne _, fun hh => nomatch hh⟩
  rw [if_neg g3] at h
  by_cases g4 : c = '#'
  · rw [if_pos g4] at h
    dsimp only at h
    injection h with h1 h2
    injection h1 with h1
    rw [← h1]
    exact ⟨fun _ => noNL_takeWhile_ne _, fun hh => nomatch hh⟩
  rw [if_neg g4] at h
  by_cases g5 : c = '\x7b'
  · rw [if_pos g5] at h
    injection h with h1 h2
    injection h1 with h1
    rw [← h1]
    exact ⟨fun hh => (nomatch hh), fun hh => (nomatch hh)⟩
  rw [if_neg g5] at h
  by_cases g6 : c = '\x7d'
  · rw [if_pos g6] at h
    injection h with h1 h2
    injection h1 with h1
    rw [← h1]
    exact ⟨fun hh => (nomatch hh), fun hh => (nomatch hh)⟩
  rw [if_neg g6] at h
  by_cases g7 : c = '['
  · rw [if_pos g7] at h
    injection h with h1 h2
    injection h1 with h1
    rw [← h1]
    exact ⟨fun hh => (nomatch hh), fun hh => (nomatch hh)⟩
  rw [if_neg g7] at h
  by_cases g8 : c = ']'
  · rw [if_pos g8] at h
    injection h with h1 h2
    injection h1 with h1
    rw [← h1]
    exact ⟨fun hh => (nomatch hh), fun hh => (nomatch hh)⟩
  rw [if_neg g8] at h
  by_cases g9 : c = ','
  · rw [if_pos g9] at h
    injection h with h1 h2
    injection h1 with h1
    rw [← h1]
    exact ⟨fun hh => (nomatch hh), fun hh => (nomatch hh)⟩
  rw [if_neg g9] at h
  by_cases g10 : c = ':'
  · rw [if_pos g10] at h
    injection h with h1 h2
    injection h1 with h1
    rw [← h1]
    exact ⟨fun hh => (nomatch hh), fun hh => (nomatch hh)⟩
  rw [if_neg g10] at h
  by_cases g11 : c = '='
  · rw [if_pos g11] at h
    injection h with h1 h2
    injection h1 with h1
    rw [← h1]
    exact ⟨fun hh => (nomatch hh), fun hh => (nomatch hh)⟩
  rw [if_neg g11] at h
  by_cases g12 : (c = '+' && nextIs '=' rest) = true
  · rw [if_pos g12] at h
    injection h with h1 h2
    injection h1 with h1
    rw [← h1]
    exact ⟨fun hh => (nomatch hh), fun hh => (nomatch hh)⟩
  rw [if_neg g12] at h
  by_cases g13 : (c = '$' && nextIs '\x7b' rest) = true
  · rw [if_pos g13] at h
    dsimp only at h
    injection h with h1 h2
    injection h1 with h1
    rw [← h1]
    exact ⟨fun hh => (nomatch hh), fun hh => (nomatch hh)⟩
  rw [if_neg g13] at h
  by_cases g14 : (c = '"' && nextTwoQuotes rest) = true
  · rw [if_pos g14] at h
    injection h with h1 h2
    injection h1 with h1
    rw [← h1]
    exact ⟨fun hh => (nomatch hh), fun hh => (nomatch hh)⟩
  rw [if_neg g14] at h
  by_cases g15 : c = '"'
  · rw [if_pos g15] at h
    injection h with h1 h2
    injection h1 with h1
    rw [← h1]
    exact ⟨fun hh => (nomatch hh), fun hh => (nomatch hh)⟩
  rw [if_neg g15] at h
  by_cases g16 : (isDigitChar c || (c = '-' && nextDigit rest)) = true
  · rw [if_pos g16] at h
    have hcd : isDigitChar c = true ∨ c = '-' := by
      cases hdig : isDigitChar c with
      | true => exact Or.inl rfl
      | false =>
        rw [hdig, Bool.false_or, Bool.and_eq_true] at g16
        exact Or.inr (of_decide_eq_true g16.1)
    injection h with h1 h2
    injection h1 with h1
    rw [← h1]
    exact ⟨fun hh => (nomatch hh), fun _ => scanNumber_tokOK c rest hcd⟩
  rw [if_neg g16] at h
  by_cases g17 : isUnquotedChar c = true
  · rw [if_pos g17] at h
    dsimp only at h
    split at h
    · injection h with h1 h2
      injection h1 with h1
      rw [← h1]
      exact ⟨fun hh => (nomatch hh), fun hh => (nomatch hh)⟩
    split at h
    · injection h with h1 h2
      injection h1 with h1
      rw [← h1]
      exact ⟨fun hh => (nomatch hh), fun hh => (nomatch hh)⟩
    split at h
    · injection h with h1 h2
      injection h1 with h1
      rw [← h1]
      exact ⟨fun hh => (nomatch hh), fun hh => (nomatch hh)⟩
    · injection h with h1 h2
      injection h1 with h1
      rw [← h1]
      exact ⟨fun hh => (nomatch hh), fun hh => (nomatch hh)⟩
  · rw [if_neg g17] at h
    injection h with h1 h2
    exact Option.noConfusion h1

theorem tokenizeLoop_ok : ∀ fuel cs, toksOK (tokenizeLoop fuel cs) := by
  intro fuel
  induction fuel with
  | zero => intro cs t ht; exact absurd ht (List.not_mem_nil t)
  | succ n ih =>
    intro cs
    cases cs with
    | nil => intro t ht; exact absurd ht (List.not_mem_nil t)
    | cons c rest =>
      rcases hs : scanStep c rest with ⟨ot, r⟩
      cases ot with
      | some t =>
        have hred : tokenizeLoop (n + 1) (c :: rest) = t :: tokenizeLoop n r := by
          conv_lhs => rw [tokenizeLoop]
          rw [hs]
        rw [hred]
        intro t' ht'
        rcases List.mem_cons.mp ht' with h | h
        · subst h
          exact scanStep_ok c rest t' r hs
        · exact ih r t' h
      | none =>
        have hred : tokenizeLoop (n + 1) (c :: rest) = tokenizeLoop n r := by
          conv_lhs => rw [tokenizeLoop]
          rw [hs]
        rw [hred]
        exact ih r

theorem tokenize_ok (s : String) : toksOK (tokenize s) := by
  intro t ht
  unfold tokenize at ht
  rcases List.mem_append.mp ht with h | h
  · exact tokenizeLoop_ok _ _ t h
  · rcases List.mem_singleton.mp h with rfl
    exact tokOK_eofToken

/-! ### Newline-run discipline of the collapse pass (claim C8) -/

theorem allNL_append (a b : List Char) : allNL (a ++ b) = (allNL a && allNL b) := by
  unfold allNL
  exact List.all_append

theorem trailNLRun_cons_not_allNL (c : Char) (l : List Char)
    (h : allNL (c :: l) = false) : trailNLRun (c :: l) = trailNLRun l := by
  conv_lhs => rw [trailNLRun]
  rw [h]
  rfl

theorem trailNLRun_cons_ne (c : Char) (l : List Char) (h : ¬ c = '\n') :
    trailNLRun (c :: l) = trailNLRun l := by
  apply trailNLRun_cons_not_allNL
  simp [allNL, List.all_cons, h]

theorem trailNLRun_of_allNL : ∀ l : List Char, allNL l = true → trailNLRun l = l.length := by
  intro l h
  cases l with
  | nil => rfl
  | cons c rest =>
    conv_lhs => rw [trailNLRun]
    rw [h]
    rfl

theorem trailNLRun_replicate (k : Nat) : trailNLRun (List.replicate k '\n') = k := by
  rw [trailNLRun_of_allNL, List.length_replicate]
  simp only [allNL, List.all_eq_true, decide_eq_true_eq]
  intro x hx
  exact List.eq_of_mem_replicate hx

theorem trailNLRun_append_not_allNL (a : List Char) {b : List Char}
    (hb : allNL b = false) : trailNLRun (a ++ b) = trailNLRun b := by
  induction a with
  | nil => rfl
  | cons c a2 ih =>
    have hall : allNL (c :: (a2 ++ b)) = false := by
      rw [show c :: (a2 ++ b) = (c :: a2) ++ b from rfl, allNL_append, hb, Bool.and_false]
    rw [List.cons_append, trailNLRun_cons_not_allNL _ _ hall]
    exact ih

theorem trailNLRun_append_one (X : List Char) (h : X.getLast? ≠ some '\n') :
    trailNLRun (X ++ ['\n']) = 1 := by
  induction X with
  | nil => rfl
  | cons c X2 ih =>
    have hne : c :: X2 ≠ [] := by simp
    have hlast : (c :: X2).getLast hne ≠ '\n' := by
      intro hcon
      apply h
      rw [List.getLast?_eq_getLast_of_ne_nil hne, hcon]
    have hall : allNL ((c :: X2) ++ ['\n']) = false := by
      apply Bool.eq_false_iff.mpr
      intro hcon
      exact hlast (of_decide_eq_true (List.all_eq_true.mp hcon _
        (List.mem_append.mpr (Or.inl (List.getLast_mem hne)))))
    rw [List.cons_append, trailNLRun_cons_not_allNL _ _ (by rw [← List.cons_append]; exact hall)]
    cases X2 with
    | nil => rfl
    | cons d X3 =>
      apply ih
      intro hcon
      apply h
      rw [List.getLast?_cons_cons]
      exact hcon

theorem getLast?_of_trail_pos : ∀ l : List Char, 1 ≤ trailNLRun l →
    l.getLast? = some '\n' := by
  intro l
  induction l with
  | nil => intro h; exact absurd h (by decide)
  | cons c rest ih =>
    intro h
    by_cases hall : allNL (c :: rest) = true
    · have hne : c :: rest ≠ [] := by simp
      rw [List.getLast?_eq_getLast_of_ne_nil hne]
      have := List.all_eq_true.mp hall _ (List.getLast_mem hne)
      rw [of_decide_eq_true this]
    · have hfalse : allNL (c :: rest) = false := Bool.eq_false_iff.mpr hall
      rw [trailNLRun_cons_not_allNL _ _ hfalse] at h
      cases rest with
      | nil => exact absurd h (by decide)
      | cons d rest2 =>
        rw [List.getLast?_cons_cons]
        exact ih h

theorem runWith_allNL (k : Nat) {l : List Char} (h : allNL l = true) :
    runWith k l = k + l.length := by
  unfold runWith
  rw [h]
  rfl

theorem runWith_not_allNL (k : Nat) {l : List Char} (h : allNL l = false) :
    runWith k l = trailNLRun l := by
  unfold runWith
  rw [h]
  rfl

theorem collapse_trail : ∀ l : List Char,
    trailNLRun (collapseNL l) = capRun (trailNLRun l) ∧
      ∀ k, 1 ≤ k → trailNLRun (collapseRun k l) = capRun (runWith k l)
  | [] => by
    constructor
    · rfl
    · intro k _
      have hrw : runWith k [] = k := by simp [runWith, allNL]
      rw [show collapseRun k [] = emitRun k from by rw [collapseRun], hrw]
      unfold emitRun capRun
      by_cases hk3 : 3 ≤ k
      · rw [if_pos hk3, if_pos hk3]
        decide
      · rw [if_neg hk3, if_neg hk3]
        exact trailNLRun_replicate k
  | c :: rest => by
    obtain ⟨ih1, ih2⟩ := collapse_trail rest
    constructor
    · by_cases hc : c = '\n'
      · rw [show collapseNL (c :: rest) = collapseRun 1 rest from by
          rw [collapseNL, if_pos hc]]
        rw [ih2 1 (by omega)]
        congr 1
        subst hc
        by_cases hall : allNL rest = true
        · have h2 : allNL ('\n' :: rest) = true := by
            simp [allNL, List.all_cons] at hall ⊢
            exact hall
          rw [runWith_allNL 1 hall, trailNLRun_of_allNL _ h2, List.length_cons]
          omega
        · have hfalse : allNL rest = false := Bool.eq_false_iff.mpr hall
          have h2 : allNL ('\n' :: rest) = false := by
            simp [allNL, List.all_cons] at hfalse ⊢
            exact hfalse
          rw [runWith_not_allNL 1 hfalse, trailNLRun_cons_not_allNL _ _ h2]
      · rw [show collapseNL (c :: rest) = c :: collapseNL rest from by
          rw [collapseNL, if_neg hc]]
        rw [trailNLRun_cons_ne c _ hc, ih1, trailNLRun_cons_ne c rest hc]
    · intro k hk
      by_cases hc : c = '\n'
      · rw [show collapseRun k (c :: rest) = collapseRun (k + 1) rest from by
          rw [collapseRun, if_pos hc]]
        rw [ih2 (k + 1) (by omega)]
        congr 1
        subst hc
        by_cases hall : allNL rest = true
        · have h2 : allNL ('\n' :: rest) = true := by
            simp [allNL, List.all_cons] at hall ⊢
            exact hall
          rw [runWith_allNL (k + 1) hall, runWith_allNL k h2, List.length_cons]
          omega
        · have hfalse : allNL rest = false := Bool.eq_false_iff.mpr hall
          have h2 : allNL ('\n' :: rest) = false := by
            simp [allNL, List.all_cons] at hfalse ⊢
            exact hfalse
          rw [runWith_not_allNL (k + 1) hfalse, runWith_not_allNL k h2,
            trailNLRun_cons_not_allNL _ _ h2]
      · rw [show collapseRun k (c :: rest) = emitRun k ++ (c :: collapseNL rest) from by
          rw [collapseRun, if_neg hc]]
        have hcall : allNL (c :: collapseNL rest) = false := by
          simp [allNL, List.all_cons, hc]
        have h2 : allNL (c :: rest) = false := by
          simp [allNL, List.all_cons, hc]
        rw [trailNLRun_append_not_allNL _ hcall, trailNLRun_cons_ne c _ hc, ih1,
          runWith_not_allNL k h2, trailNLRun_cons_not_allNL _ _ h2]

theorem not_triple_cons_ne {X : List Char} {c : Char} (hc : ¬ c = '\n')
    (hX : ¬ ['\n', '\n', '\n'] <:+: X) : ¬ ['\n', '\n', '\n'] <:+: (c :: X) := by
  intro h
  rcases List.infix_cons_iff.mp h with h | h
  · rcases List.cons_prefix_cons.mp h with ⟨h1, _⟩
    exact hc h1.symm
  · exact hX h

theorem not_triple_two_nl {X : List Char} {c : Char} (hc : ¬ c = '\n')
    (hX : ¬ ['\n', '\n', '\n'] <:+: X) :
    ¬ ['\n', '\n', '\n'] <:+: ('\n' :: '\n' :: c :: X) := by
  have h0 : ¬ ['\n', '\n', '\n'] <:+: (c :: X) := not_triple_cons_ne hc hX
  intro h
  rcases List.infix_cons_iff.mp h with h | h
  · rcases List.cons_prefix_cons.mp h with ⟨_, h⟩
    rcases List.cons_prefix_cons.mp h with ⟨_, h⟩
    rcases List.cons_prefix_cons.mp h with ⟨h3, _⟩
    exact hc h3.symm
  rcases List.infix_cons_iff.mp h with h | h
  · rcases List.cons_prefix_cons.mp h with ⟨_, h⟩
    rcases List.cons_prefix_cons.mp h with ⟨h3, _⟩
    exact hc h3.symm
  · exact h0 h

theorem not_triple_emit (k : Nat) {c : Char} {X : List Char} (hc : ¬ c = '\n')
    (hX : ¬ ['\n', '\n', '\n'] <:+: X) :
    ¬ ['\n', '\n', '\n'] <:+: (emitRun k ++ c :: X) := by
  have h0 : ¬ ['\n', '\n', '\n'] <:+: (c :: X) := not_triple_cons_ne hc hX
  unfold emitRun
  split
  · exact not_triple_two_nl hc hX
  · next hk =>
    have hk3 : k < 3 := by omega
    interval_cases k
    · exact h0
    · intro h
      rcases List.infix_cons_iff.mp h with h | h
      · rcases List.cons_prefix_cons.mp h with ⟨_, h⟩
        rcases List.cons_prefix_cons.mp h with ⟨h2, _⟩
        exact hc h2.symm
      · exact h0 h
    · exact not_triple_two_nl hc hX

theorem collapse_no_triple : ∀ l : List Char,
    (¬ ['\n', '\n', '\n'] <:+: collapseNL l) ∧
      ∀ k, ¬ ['\n', '\n', '\n'] <:+: collapseRun k l
  | [] => by
    constructor
    · intro h
      exact absurd h.length_le (by decide)
    · intro k h
      have hlen := h.length_le
      rw [show collapseRun k [] = emitRun k from by rw [collapseRun]] at hlen
      have h2 : (emitRun k).length ≤ 2 := by
        unfold emitRun
        split
        · decide
        · rw [List.length_replicate]
          omega
      simp only [List.length_cons, List.length_nil] at hlen
      omega
  | c :: rest => by
    obtain ⟨ih1, ih2⟩ := collapse_no_triple rest
    constructor
    · by_cases hc : c = '\n'
      · rw [show collapseNL (c :: rest) = collapseRun 1 rest from by
          rw [collapseNL, if_pos hc]]
        exact ih2 1
      · rw [show collapseNL (c :: rest) = c :: collapseNL rest from by
          rw [collapseNL, if_neg hc]]
        exact not_triple_cons_ne hc ih1
    · intro k
      by_cases hc : c = '\n'
      · rw [show collapseRun k (c :: rest) = collapseRun (k + 1) rest from by
          rw [collapseRun, if_pos hc]]
        exact ih2 (k + 1)
      · rw [show collapseRun k (c :: rest) = emitRun k ++ (c :: collapseNL rest) from by
          rw [collapseRun, if_neg hc]]
        exact not_triple_emit k hc ih1

/-! ### Every rendered member is nonempty and does not end in a newline -/

theorem endsNonNL_append (a : String) {b : String} (hb : endsNonNL b) :
    endsNonNL (a ++ b) := by
  obtain ⟨hne, hlast⟩ := hb
  constructor
  · rw [String.data_append]
    intro h
    exact hne (List.append_eq_nil.mp h).2
  · rw [String.data_append, List.getLast?_append_of_ne_nil _ hne]
    exact hlast

theorem endsNonNL_append_noNL {a : String} (s : String) (ha : endsNonNL a)
    (hs : '\n' ∉ s.data) : endsNonNL (a ++ s) := by
  cases hsd : s.data with
  | nil =>
    obtain ⟨h1, h2⟩ := ha
    constructor
    · rw [String.data_append, hsd, List.append_nil]
      exact h1
    · rw [String.data_append, hsd, List.append_nil]
      exact h2
  | cons d ds =>
    have hne : s.data ≠ [] := by rw [hsd]; simp
    refine endsNonNL_append a ⟨hne, ?_⟩
    intro hcon
    exact hs (List.mem_of_getLast?_eq_some hcon)

theorem formatComment_endsNonNL {c : CommentNode} (hc : comOK c) :
    endsNonNL (formatComment c) := by
  unfold formatComment
  exact endsNonNL_append_noNL _ (by decide) hc

mutual

theorem formatValue_endsNonNL : ∀ (lvl : Nat) (v : ValueNode), textInvV v →
    endsNonNL (formatValue lvl v)
  | lvl, .str v raw ml, _ => by
    rw [show formatValue lvl (.str v raw ml) =
        (if ml then "\"\"\"" ++ v ++ "\"\"\"" else "\"" ++ escapeString v ++ "\"") from rfl]
    split
    · exact endsNonNL_append _ (by decide)
    · exact endsNonNL_append _ (by decide)
  | lvl, .num raw, hinv => by
    rw [show formatValue lvl (.num raw) = raw from rfl]
    refine ⟨?_, ?_⟩
    · intro h
      apply hinv.1
      cases raw with
      | mk d =>
        have hd : d = [] := h
        rw [hd]
    · intro hcon
      exact hinv.2 (List.mem_of_getLast?_eq_some hcon)
  | lvl, .boolean b, _ => by
    rw [show formatValue lvl (.boolean b) = (if b then "true" else "false") from rfl]
    split
    · decide
    · decide
  | lvl, .null, _ => by
    rw [show formatValue lvl .null = "null" from rfl]
    decide
  | lvl, .obj fs, hinv => by
    cases fs with
    | nil =>
      rw [show formatValue lvl (.obj .nil) = "\x7b\x7d" from rfl]
      decide
    | cons m rest =>
      rw [show formatValue lvl (.obj (.cons m rest)) =
          "\x7b\n" ++ formatObjectMembers (lvl + 1) true (.cons m rest) ++
            writeIndent lvl ++ "\x7d" from rfl]
      exact endsNonNL_append _ (by decide)
  | lvl, .arr els, hinv => by
    cases els with
    | nil =>
      rw [show formatValue lvl (.arr .nil) = "[]" from rfl]
      decide
    | cons e rest =>
      rw [show formatValue lvl (.arr (.cons e rest)) =
          (if canArrayFitOnLine (.cons e rest) then
            "[" ++ formatArraySingle lvl true (.cons e rest) ++ "]"
          else
            "[\n" ++ formatArrayMulti (lvl + 1) (.cons e rest) ++ writeIndent lvl ++ "]")
          from rfl]
      split
      · exact endsNonNL_append _ (by decide)
      · exact endsNonNL_append _ (by decide)
  | lvl, .subst path opt raw, _ => by
    rw [show formatValue lvl (.subst path opt raw) = formatSubstitution path opt from rfl]
    unfold formatSubstitution
    split
    · exact endsNonNL_append _ (by decide)
    · exact endsNonNL_append _ (by decide)
  | lvl, .concat ps, hinv => by
    obtain ⟨hne, hvl⟩ := hinv
    cases ps with
    | nil => exact absurd rfl hne
    | cons p rest =>
      rw [show formatValue lvl (.concat (.cons p rest)) =
          formatValue lvl p ++ formatConcatRest lvl p rest from rfl]
      cases rest with
      | nil =>
        rw [show formatConcatRest lvl p .nil = "" from rfl]
        exact endsNonNL_append_noNL "" (formatValue_endsNonNL lvl p hvl.1) (by decide)
      | cons q rest2 =>
        exact endsNonNL_append _ (formatConcatRest_endsNonNL lvl p (.cons q rest2)
          (fun hcon => ValueList.noConfusion hcon) hvl.2)

theorem formatConcatRest_endsNonNL : ∀ (lvl : Nat) (prev : ValueNode) (ps : ValueList),
    ps ≠ .nil → textInvVL ps → endsNonNL (formatConcatRest lvl prev ps)
  | lvl, prev, .nil, hne, _ => absurd rfl hne
  | lvl, prev, .cons p rest, _, hinv => by
    rw [show formatConcatRest lvl prev (.cons p rest) =
        (if !isSubst prev && !isSubst p then " " else "") ++ formatValue lvl p ++
          formatConcatRest lvl p rest from rfl]
    cases rest with
    | nil =>
      rw [show formatConcatRest lvl p .nil = "" from rfl]
      exact endsNonNL_append_noNL ""
        (endsNonNL_append _ (formatValue_endsNonNL lvl p hinv.1)) (by decide)
    | cons q rest2 =>
      exact endsNonNL_append _ (formatConcatRest_endsNonNL lvl p (.cons q rest2)
        (fun hcon => ValueList.noConfusion hcon) hinv.2)

end

theorem formatRootElement_endsNonNL (lvl : Nat) (m : Member) (hm : textInvM m) :
    endsNonNL (formatRootElement lvl m) := by
  cases m with
  | field k sep v leading trailing pbl =>
    obtain ⟨hv, hlead, htc⟩ := hm
    cases trailing with
    | none =>
      rw [show formatRootElement lvl (.field k sep v leading none pbl) =
          leadingBlock leading ++ writeIndent lvl ++ formatKey k ++ " = " ++
            formatValue lvl v ++ "" from rfl]
      exact endsNonNL_append_noNL ""
        (endsNonNL_append _ (formatValue_endsNonNL lvl v hv)) (by decide)
    | some tc =>
      have hctc : comOK tc := htc tc rfl
      rw [show formatRootElement lvl (.field k sep v leading (some tc) pbl) =
          leadingBlock leading ++ writeIndent lvl ++ formatKey k ++ " = " ++
            formatValue lvl v ++ (" " ++ formatComment tc) from rfl]
      exact endsNonNL_append _ (endsNonNL_append _ (formatComment_endsNonNL hctc))
  | incl path required kind leading pbl =>
    cases required with
    | true => exact endsNonNL_append _ (by decide)
    | false =>
      refine endsNonNL_append_noNL _ ?_ (by decide)
      cases kind with
      | file => exact endsNonNL_append _ (endsNonNL_append _ (by decide))
      | url => exact endsNonNL_append _ (endsNonNL_append _ (by decide))
      | classpath => exact endsNonNL_append _ (endsNonNL_append _ (by decide))
  | comm c leading pbl =>
    obtain ⟨hc, hlead⟩ := hm
    rw [show formatRootElement lvl (.comm c leading pbl) =
        leadingBlock leading ++ formatComment c from rfl]
    exact endsNonNL_append _ (formatComment_endsNonNL hc)

theorem formatDocumentMembers_trail : ∀ (first : Bool) (ms : List Member), ms ≠ [] →
    textInvDoc ms →
    trailNLRun (formatDocumentMembers first ms).data = 1 ∧
      allNL (formatDocumentMembers first ms).data = false := by
  intro first ms
  induction ms generalizing first with
  | nil => intro h _; exact absurd rfl h
  | cons m rest ih =>
    intro _ hinv
    have hm : textInvM m := hinv m (List.mem_cons_self _ _)
    have hfre := formatRootElement_endsNonNL 0 m hm
    rw [show formatDocumentMembers first (m :: rest) =
        (if !first && pblPositive (pblOf m) then "\n" else "") ++
          formatRootElement 0 m ++ "\n" ++ formatDocumentMembers false rest from rfl]
    cases rest with
    | nil =>
      rw [show formatDocumentMembers false ([] : List Member) = "" from rfl]
      have hX : ((if !first && pblPositive (pblOf m) then "\n" else "") ++
          formatRootElement 0 m).data.getLast? ≠ some '\n' := by
        rw [String.data_append, List.getLast?_append_of_ne_nil _ hfre.1]
        exact hfre.2
      constructor
      · rw [String.data_append, String.data_append,
          show ("" : String).data = [] from rfl, List.append_nil,
          show ("\n" : String).data = ['\n'] from rfl]
        exact trailNLRun_append_one _ hX
      · apply Bool.eq_false_iff.mpr
        intro hcon
        have hlastne : (formatRootElement 0 m).data.getLast hfre.1 ≠ '\n' := by
          intro heq
          apply hfre.2
          rw [List.getLast?_eq_getLast_of_ne_nil hfre.1, heq]
        apply hlastne
        have hmem : (formatRootElement 0 m).data.getLast hfre.1 ∈
            ((if !first && pblPositive (pblOf m) then "\n" else "") ++
              formatRootElement 0 m ++ "\n" ++ "").data := by
          rw [String.data_append, String.data_append, String.data_append]
          exact List.mem_append.mpr (Or.inl (List.mem_append.mpr (Or.inl
            (List.mem_append.mpr (Or.inr (List.getLast_mem hfre.1))))))
        exact of_decide_eq_true (List.all_eq_true.mp hcon _ hmem)
    | cons m2 rest2 =>
      obtain ⟨ih1, ih2⟩ := ih false (by simp)
        (fun x hx => hinv x (List.mem_cons_of_mem _ hx))
      constructor
      · rw [String.data_append, trailNLRun_append_not_allNL _ ih2]
        exact ih1
      · rw [String.data_append, allNL_append, ih2, Bool.and_false]

theorem formatAst_trail (doc : Document) (hd : textInvDoc doc) :
    trailNLRun (formatAst doc).data = 1 ∧
      ¬ ['\n', '\n', '\n'] <:+: (formatAst doc).data := by
  cases doc with
  | nil => exact ⟨by decide, by decide⟩
  | cons m rest =>
    obtain ⟨h1, h2⟩ := formatDocumentMembers_trail true (m :: rest) (by simp) hd
    have hends : endsWithNL (formatDocumentMembers true (m :: rest)) = true := by
      unfold endsWithNL
      rw [getLast?_of_trail_pos _ (le_of_eq h1.symm)]
      simp
    have hAst : formatAst (m :: rest) =
        ⟨collapseNL (formatDocumentMembers true (m :: rest)).data⟩ := by
      unfold formatAst
      dsimp only
      rw [hends]
      rfl
    rw [hAst]
    constructor
    · show trailNLRun (collapseNL (formatDocumentMembers true (m :: rest)).data) = 1
      rw [(collapse_trail _).1, h1]
      decide
    · show ¬ ['\n', '\n', '\n'] <:+:
        collapseNL (formatDocumentMembers true (m :: rest)).data
      exact (collapse_no_triple _).1


theorem tokOK_cur {ts : List Token} (h : toksOK ts) : tokOK (cur ts) := by
  cases ts with
  | nil => exact tokOK_eofToken
  | cons t rest => exact h t (List.mem_cons_self t rest)

theorem parseComment_snd (ts : List Token) : (parseComment ts).2 = adv ts := rfl

theorem parseComment_ok {ts : List Token} (h : toksOK ts)
    (hc : (cur ts).ttype = .comment) : comOK (parseComment ts).1 :=
  (tokOK_cur h).1 hc

/-- `parseKeyLoop` only moves forward through the tokens. -/
theorem parseKeyLoop_suffix : ∀ fuel parts raw ts out,
    parseKeyLoop fuel parts raw ts = some out → out.2.2 <:+ ts := by
  intro fuel
  induction fuel with
  | zero => intro _ _ _ _ h; exact Option.noConfusion h
  | succ g ih =>
    intro parts raw ts out h
    unfold parseKeyLoop at h
    split at h
    · split at h
      · exact ((ih _ _ _ _ h).trans (adv_suffix _)).trans (adv_suffix ts)
      · exact (ih _ _ _ _ h).trans (adv_suffix ts)
    · cases h; exact List.suffix_refl _

/-- `parseKeyFinish` keeps the token position of the loop result. -/
theorem parseKeyFinish_suffix {o out} (h : parseKeyFinish o = some out) :
    ∃ parts raw, o = some (parts, raw, out.2) := by
  cases o with
  | none => exact Option.noConfusion h
  | some triple =>
    obtain ⟨parts, raw, ts2⟩ := triple
    have hout : out.2 = ts2 := by
      simp only [parseKeyFinish] at h
      split at h <;> (injection h with h1; rw [← h1])
    exact ⟨parts, raw, by rw [hout]⟩

/-- `parseKey` only moves forward through the tokens. -/
theorem parseKey_suffix {fuel : Nat} {ts : List Token} {out} :
    parseKey fuel ts = some out → out.2 <:+ ts := by
  intro h
  unfold parseKey at h
  split at h
  · obtain ⟨parts, raw, hloop⟩ := parseKeyFinish_suffix h
    exact (parseKeyLoop_suffix _ _ _ _ _ hloop).trans (adv_suffix ts)
  · obtain ⟨parts, raw, hloop⟩ := parseKeyFinish_suffix h
    exact parseKeyLoop_suffix _ _ _ _ _ hloop

theorem parseIncludeParen_suffix (ts : List Token) : parseIncludeParen ts <:+ ts := by
  unfold parseIncludeParen
  split
  · exact adv_suffix ts
  · exact List.suffix_refl _

theorem parseIncludeClose_suffix (ts : List Token) : parseIncludeClose ts <:+ ts := by
  unfold parseIncludeClose
  split
  · exact (adv_suffix _).trans (skipWhitespaceT_suffix ts)
  · exact skipWhitespaceT_suffix ts

theorem parseIncludeHeader_suffix (ts : List Token) :
    (parseIncludeHeader ts).2.2 <:+ ts := by
  unfold parseIncludeHeader
  split
  · split
    · exact (parseIncludeParen_suffix _).trans
        ((skipWhitespaceT_suffix _).trans (adv_suffix ts))
    · split
      · exact (parseIncludeParen_suffix _).trans
          ((skipWhitespaceT_suffix _).trans (adv_suffix ts))
      · exact List.suffix_refl _
  · exact List.suffix_refl _

theorem parseIncludeAfterHeader_suffix (ts0 : List Token) :
    parseIncludeAfterHeader ts0 <:+ ts0 :=
  (skipWhitespaceT_suffix _).trans ((parseIncludeHeader_suffix _).trans
    ((skipWhitespaceT_suffix _).trans (adv_suffix ts0)))

theorem parseIncludePath_suffix (ts0 : List Token) :
    (parseIncludePath ts0).2 <:+ ts0 := by
  unfold parseIncludePath
  split
  · exact (adv_suffix _).trans (parseIncludeAfterHeader_suffix ts0)
  · exact parseIncludeAfterHeader_suffix ts0

/-- `parseInclude` only moves forward and builds a member with no comments
attached. -/
theorem parseInclude_props (ts0 : List Token) :
    (parseInclude ts0).2 <:+ ts0 ∧
      concatInvM (parseInclude ts0).1 ∧ textInvM (parseInclude ts0).1 := by
  unfold parseInclude
  dsimp only
  refine ⟨?_, trivial, ?_⟩
  · exact (parseIncludeClose_suffix _).trans
      ((parseIncludeClose_suffix _).trans (parseIncludePath_suffix ts0))
  · show comsOK []
    intro c hc
    exact absurd hc (List.not_mem_nil c)

/-- `collectCommentsF` preserves the state invariant. -/
theorem collectCommentsF_ok : ∀ fuel st st',
    collectCommentsF fuel st = some st' →
      (st'.toks <:+ st.toks) ∧ (stOK st → stOK st') := by
  intro fuel
  induction fuel with
  | zero => intro _ _ h; exact Option.noConfusion h
  | succ g ih =>
    intro st st' h
    unfold collectCommentsF at h
    split at h
    · next hcomment =>
      obtain ⟨hsuf, hpres⟩ := ih _ _ h
      refine ⟨hsuf.trans ((skipWSNLT_suffix _).trans (adv_suffix _)), ?_⟩
      · intro ⟨htoks, hpend⟩
        apply hpres
        constructor
        · exact toksOK_of_suffix ((skipWSNLT_suffix _).trans (adv_suffix _)) htoks
        · intro c hc
          rcases List.mem_append.mp hc with hmem | hmem
          · exact hpend c hmem
          · rcases List.mem_singleton.mp hmem with rfl
            exact parseComment_ok htoks hcomment
    · cases h; exact ⟨List.suffix_refl _, id⟩

/-! ### Conversion lemmas between accumulator lists and AST lists -/

theorem toValueList_length (l : List ValueNode) : (toValueList l).length = l.length := by
  induction l with
  | nil => rfl
  | cons v rest ih => simp [toValueList, ValueList.length, ih]; omega

theorem toValueList_ne_nil {l : List ValueNode} (h : l ≠ []) : toValueList l ≠ .nil := by
  cases l with
  | nil => exact absurd rfl h
  | cons v rest => intro hc; exact ValueList.noConfusion hc

theorem concatInvVL_toValueList {l : List ValueNode} (h : ∀ v ∈ l, concatInvV v) :
    concatInvVL (toValueList l) := by
  induction l with
  | nil => trivial
  | cons v rest ih =>
    exact ⟨h v (List.mem_cons_self v rest),
      ih fun w hw => h w (List.mem_cons_of_mem v hw)⟩

theorem textInvVL_toValueList {l : List ValueNode} (h : ∀ v ∈ l, textInvV v) :
    textInvVL (toValueList l) := by
  induction l with
  | nil => trivial
  | cons v rest ih =>
    exact ⟨h v (List.mem_cons_self v rest),
      ih fun w hw => h w (List.mem_cons_of_mem v hw)⟩

theorem concatInvEL_toElementList {l : List Element} (h : ∀ e ∈ l, concatInvE e) :
    concatInvEL (toElementList l) := by
  induction l with
  | nil => trivial
  | cons e rest ih =>
    have he := h e (List.mem_cons_self e rest)
    have hrest := ih fun x hx => h x (List.mem_cons_of_mem e hx)
    cases e with
    | val v => exact ⟨he, hrest⟩
    | comm c => exact hrest

theorem textInvEL_toElementList {l : List Element} (h : ∀ e ∈ l, textInvE e) :
    textInvEL (toElementList l) := by
  induction l with
  | nil => trivial
  | cons e rest ih =>
    have he := h e (List.mem_cons_self e rest)
    have hrest := ih fun x hx => h x (List.mem_cons_of_mem e hx)
    cases e with
    | val v => exact ⟨he, hrest⟩
    | comm c => exact ⟨he, hrest⟩

theorem concatInvML_toMemberList {l : List Member} (h : ∀ m ∈ l, concatInvM m) :
    concatInvML (toMemberList l) := by
  induction l with
  | nil => trivial
  | cons m rest ih =>
    exact ⟨h m (List.mem_cons_self m rest),
      ih fun x hx => h x (List.mem_cons_of_mem m hx)⟩

theorem textInvML_toMemberList {l : List Member} (h : ∀ m ∈ l, textInvM m) :
    textInvML (toMemberList l) := by
  induction l with
  | nil => trivial
  | cons m rest ih =>
    exact ⟨h m (List.mem_cons_self m rest),
      ih fun x hx => h x (List.mem_cons_of_mem m hx)⟩

theorem withLeading_concatInv {m : Member} (h : concatInvM m) (pend : List CommentNode) :
    concatInvM (m.withLeading pend) := by
  cases m <;> simpa [Member.withLeading, concatInvM] using h

theorem withLeading_textInv {m : Member} (h : textInvM m) {pend : List CommentNode}
    (hp : comsOK pend) : textInvM (m.withLeading pend) := by
  cases m with
  | field k s v leading trailing pbl =>
    exact ⟨h.1, hp, h.2.2⟩
  | incl path r kind leading pbl => exact hp
  | comm c leading pbl => exact ⟨h.1, hp⟩

theorem pendingMembers_ok {pend : List CommentNode} (hp : comsOK pend) :
    ∀ m ∈ pend.map (fun c => Member.comm c [] none), concatInvM m ∧ textInvM m := by
  intro m hm
  rcases List.mem_map.mp hm with ⟨c, hc, rfl⟩
  refine ⟨trivial, hp c hc, ?_⟩
  intro x hx
  exact absurd hx (List.not_mem_nil x)

theorem pendingElements_ok {pend : List CommentNode} (hp : comsOK pend) :
    ∀ e ∈ pend.map Element.comm, concatInvE e ∧ textInvE e := by
  intro e he
  rcases List.mem_map.mp he with ⟨c, hc, rfl⟩
  exact ⟨trivial, hp c hc⟩

theorem comsOK_nil : comsOK [] := fun c hc => absurd hc (List.not_mem_nil c)

theorem skipComma_suffix (ts : List Token) : skipComma ts <:+ ts := by
  unfold skipComma
  split
  · exact adv_suffix ts
  · exact List.suffix_refl _

theorem parseFieldSep_suffix (ts : List Token) : (parseFieldSep ts).2 <:+ ts := by
  unfold parseFieldSep
  split
  · exact adv_suffix ts
  · split
    · exact adv_suffix ts
    · split
      · exact adv_suffix ts
      · exact List.suffix_refl _

theorem parseTrailingComment_suffix (ts : List Token) :
    (parseTrailingComment ts).2 <:+ ts := by
  unfold parseTrailingComment
  split
  · exact adv_suffix ts
  · exact List.suffix_refl _

theorem parseTrailingComment_ok {ts : List Token} (h : toksOK ts) :
    ∀ c, (parseTrailingComment ts).1 = some c → comOK c := by
  intro c hc
  unfold parseTrailingComment at hc
  split at hc
  · next hcond =>
    injection hc with h1
    rw [← h1]
    exact parseComment_ok h hcond
  · exact Option.noConfusion hc

/-- The loop state built from a suffix of well-formed tokens and a
well-formed pending buffer is well formed. -/
theorem stOK_mk {ts' : List Token} {pend : List CommentNode} {ts : List Token}
    (hsuf : ts' <:+ ts) (htoks : toksOK ts) (hpend : comsOK pend) :
    stOK ⟨ts', pend⟩ := ⟨toksOK_of_suffix hsuf htoks, hpend⟩

/-- Witness for C7 at concrete inputs: `[1, 2, 3]` (comment-free, estimate
under 80) renders single-line; the same array with a comment element renders
multi-line, one element per indented line. -/
theorem array_rendering_spec_witness :
    formatValue 0 (.arr (toElementList
        [.val (.num "1"), .val (.num "2"), .val (.num "3")])) = "[1, 2, 3]" ∧
    formatValue 0 (.arr (toElementList
        [.val (.num "1"), .comm ⟨.slash, " note"⟩])) = "[\n  1\n  // note\n]" := by
  constructor
  · rw [(array_rendering_spec 0).2.2.2 (toElementList
        [.val (.num "1"), .val (.num "2"), .val (.num "3")])
        (by intro h; exact ElementList.noConfusion h) (by decide) (by decide)]
    rfl
  · rw [(array_rendering_spec 0).2.2.1 (toElementList
        [.val (.num "1"), .comm ⟨.slash, " note"⟩])
        (by intro h; exact ElementList.noConfusion h) (Or.inl (by decide))]
    rfl

/-! ### The parser-invariant induction -/

theorem inv_step_single (f : Nat) (hobj : ObjInvP f) (harr : ArrInvP f) :
    SingleInvP (f + 1) := by
  intro st out h
  unfold parseSingleValueF at h
  dsimp only at h
  split at h
  · exact hobj _ _ h
  split at h
  · exact harr _ _ h
  split at h
  · -- quoted string
    injection h with h1
    rw [← h1]
    exact ⟨trivial, fun hst => ⟨trivial, stOK_mk (adv_suffix _) hst.1 hst.2⟩⟩
  split at h
  · -- multiline string
    injection h with h1
    rw [← h1]
    exact ⟨trivial, fun hst => ⟨trivial, stOK_mk (adv_suffix _) hst.1 hst.2⟩⟩
  split at h
  · -- number
    next hnum =>
    injection h with h1
    rw [← h1]
    refine ⟨trivial, fun hst => ⟨?_, stOK_mk (adv_suffix _) hst.1 hst.2⟩⟩
    exact (tokOK_cur hst.1).2 hnum
  split at h
  · -- boolean
    injection h with h1
    rw [← h1]
    exact ⟨trivial, fun hst => ⟨trivial, stOK_mk (adv_suffix _) hst.1 hst.2⟩⟩
  split at h
  · -- null
    injection h with h1
    rw [← h1]
    exact ⟨trivial, fun hst => ⟨trivial, stOK_mk (adv_suffix _) hst.1 hst.2⟩⟩
  split at h
  · -- substitution
    injection h with h1
    rw [← h1]
    exact ⟨trivial, fun hst => ⟨trivial, stOK_mk (adv_suffix _) hst.1 hst.2⟩⟩
  split at h
  · -- unquoted string
    injection h with h1
    rw [← h1]
    exact ⟨trivial, fun hst => ⟨trivial, stOK_mk (adv_suffix _) hst.1 hst.2⟩⟩
  · -- default: empty string node, no advance
    injection h with h1
    rw [← h1]
    exact ⟨trivial, fun hst => ⟨trivial, hst⟩⟩

theorem inv_step_concatLoop (f : Nat) (hsingle : SingleInvP f)
    (hcl : ConcatLoopInvP f) : ConcatLoopInvP (f + 1) := by
  intro st acc out h
  unfold parseConcatLoopF at h
  split at h
  · rw [Option.bind_eq_bind', Option.bind_eq_some] at h
    obtain ⟨⟨v, st2⟩, hv, h⟩ := h
    dsimp only at h
    obtain ⟨hvc, hvt⟩ := hsingle _ _ hv
    obtain ⟨⟨hlen, hcs⟩, hts⟩ := hcl _ _ _ h
    refine ⟨⟨?_, ?_⟩, ?_⟩
    · calc acc.length ≤ (acc ++ [v]).length := by simp
        _ ≤ out.1.length := hlen
    · intro hacc
      refine hcs ?_
      intro w hw
      rcases List.mem_append.mp hw with hw | hw
      · exact hacc w hw
      · rcases List.mem_singleton.mp hw with rfl
        exact hvc
    · intro hst hacc
      obtain ⟨hvt', hst2⟩ := hvt hst
      refine hts (stOK_mk (skipWhitespaceT_suffix _) hst2.1 hst2.2) ?_
      intro w hw
      rcases List.mem_append.mp hw with hw | hw
      · exact hacc w hw
      · rcases List.mem_singleton.mp hw with rfl
        exact hvt'
  · injection h with h1
    rw [← h1]
    exact ⟨⟨Nat.le_refl _, fun hacc => hacc⟩, fun hst hacc => ⟨hacc, hst⟩⟩

theorem inv_step_value (f : Nat) (hsingle : SingleInvP f)
    (hcl : ConcatLoopInvP f) : ValueInvP (f + 1) := by
  intro st out h
  unfold parseValueF at h
  rw [Option.bind_eq_bind', Option.bind_eq_some] at h
  obtain ⟨⟨first, st1⟩, hfirst, h⟩ := h
  dsimp only at h
  rw [Option.bind_eq_bind', Option.bind_eq_some] at h
  obtain ⟨⟨parts, st2⟩, hloop, h⟩ := h
  dsimp only at h
  obtain ⟨hfc, hft⟩ := hsingle _ _ hfirst
  obtain ⟨⟨hlen, hcs⟩, hts⟩ := hcl _ _ _ hloop
  have hsingleton : ∀ v ∈ [first], concatInvV v := by
    intro v hv
    rcases List.mem_singleton.mp hv with rfl
    exact hfc
  have hallc : ∀ v ∈ parts, concatInvV v := hcs hsingleton
  have htext : stOK st → (∀ v ∈ parts, textInvV v) ∧ stOK st2 := by
    intro hst
    obtain ⟨hft', hst1⟩ := hft hst
    refine hts (stOK_mk (skipWhitespaceT_suffix _) hst1.1 hst1.2) ?_
    intro v hv
    rcases List.mem_singleton.mp hv with rfl
    exact hft'
  match parts, hlen, hallc, htext, h with
  | [], hlen, _, _, _ => simp at hlen
  | [p], _, hallc, htext, h =>
    injection h with h1
    rw [← h1]
    refine ⟨hallc p (List.mem_singleton_self p), fun hst => ?_⟩
    obtain ⟨ht, hst2⟩ := htext hst
    exact ⟨ht p (List.mem_singleton_self p), hst2⟩
  | p :: q :: rest, _, hallc, htext, h =>
    injection h with h1
    rw [← h1]
    constructor
    · refine ⟨?_, concatInvVL_toValueList hallc⟩
      rw [toValueList_length]
      simp
    · intro hst
      obtain ⟨ht, hst2⟩ := htext hst
      refine ⟨⟨?_, textInvVL_toValueList ht⟩, hst2⟩
      intro hc
      exact ValueList.noConfusion hc

theorem inv_step_array (f : Nat) (harrl : ArrLoopInvP f) : ArrInvP (f + 1) := by
  intro st out h
  unfold parseArrayF at h
  rw [Option.bind_eq_bind', Option.bind_eq_some] at h
  obtain ⟨⟨els, st'⟩, hloop, h⟩ := h
  dsimp only at h
  injection h with h1
  rw [← h1]
  obtain ⟨hc, ht⟩ := harrl _ _ _ hloop
  constructor
  · exact concatInvEL_toElementList
      (hc fun e he => absurd he (List.not_mem_nil e))
  · intro hst
    obtain ⟨hts, hst'⟩ :=
      ht (stOK_mk ((skipWSNLT_suffix _).trans (adv_suffix _)) hst.1 hst.2)
        (fun e he => absurd he (List.not_mem_nil e))
    refine ⟨textInvEL_toElementList hts, ?_, hst'.2⟩
    show toksOK (if (cur st'.toks).ttype = .rightBracket then adv st'.toks else st'.toks)
    split
    · exact toksOK_of_suffix (adv_suffix _) hst'.1
    · exact hst'.1

theorem inv_step_object (f : Nat) (hobjl : ObjLoopInvP f) : ObjInvP (f + 1) := by
  intro st out h
  unfold parseObjectF at h
  rw [Option.bind_eq_bind', Option.bind_eq_some] at h
  obtain ⟨⟨fields, st'⟩, hloop, h⟩ := h
  dsimp only at h
  injection h with h1
  rw [← h1]
  obtain ⟨hc, ht⟩ := hobjl _ _ _ hloop
  constructor
  · refine concatInvML_toMemberList ?_
    intro m hm
    rcases List.mem_append.mp hm with hm | hm
    · exact hc (fun x hx => absurd hx (List.not_mem_nil x)) m hm
    · rcases List.mem_map.mp hm with ⟨c, _, rfl⟩
      trivial
  · intro hst
    obtain ⟨hts, hst'⟩ :=
      ht (stOK_mk ((skipWSNLT_suffix _).trans (adv_suffix _)) hst.1 hst.2)
        (fun x hx => absurd hx (List.not_mem_nil x))
    refine ⟨?_, ?_, comsOK_nil⟩
    · refine textInvML_toMemberList ?_
      intro m hm
      rcases List.mem_append.mp hm with hm | hm
      · exact hts m hm
      · exact ((pendingMembers_ok hst'.2) m hm).2
    · show toksOK (if (cur st'.toks).ttype = .rightBrace then adv st'.toks else st'.toks)
      split
      · exact toksOK_of_suffix (adv_suffix _) hst'.1
      · exact hst'.1

theorem inv_step_arrLoop (f : Nat) (hvalue : ValueInvP f) (harrl : ArrLoopInvP f) :
    ArrLoopInvP (f + 1) := by
  intro st acc out h
  unfold parseArrLoopF at h
  split at h
  · injection h with h1
    rw [← h1]
    exact ⟨fun hacc => hacc, fun hst hacc => ⟨hacc, hst⟩⟩
  rw [Option.bind_eq_bind', Option.bind_eq_some] at h
  obtain ⟨st1, hcol, h⟩ := h
  obtain ⟨hsuf1, hpres1⟩ := collectCommentsF_ok _ _ _ hcol
  split at h
  · injection h with h1
    rw [← h1]
    exact ⟨fun hacc => hacc, fun hst hacc => ⟨hacc, hpres1 hst⟩⟩
  split at h
  · -- a value element is parsed
    rw [Option.bind_eq_bind', Option.bind_eq_some] at h
    obtain ⟨⟨v, st2⟩, hv, h⟩ := h
    dsimp only at h
    obtain ⟨hvc, hvt⟩ := hvalue _ _ hv
    obtain ⟨hrc, hrt⟩ := harrl _ _ _ h
    constructor
    · intro hacc
      refine hrc ?_
      intro e he
      rcases List.mem_append.mp he with he | he
      · rcases List.mem_append.mp he with he | he
        · exact hacc e he
        · rcases List.mem_map.mp he with ⟨c, _, rfl⟩
          trivial
      · rcases List.mem_singleton.mp he with rfl
        exact hvc
    · intro hst hacc
      have hst1 : stOK st1 := hpres1 hst
      obtain ⟨hvt', hst2⟩ := hvt ⟨hst1.1, comsOK_nil⟩
      refine hrt (stOK_mk ((skipWSNLT_suffix _).trans
        ((skipComma_suffix _).trans (skipWhitespaceT_suffix _))) hst2.1 hst2.2) ?_
      intro e he
      rcases List.mem_append.mp he with he | he
      · rcases List.mem_append.mp he with he | he
        · exact hacc e he
        · rcases List.mem_map.mp he with ⟨c, hc, rfl⟩
          exact hst1.2 c hc
      · rcases List.mem_singleton.mp he with rfl
        exact hvt'
  · -- no value can start here: the stuck branch recursion
    obtain ⟨hrc, hrt⟩ := harrl _ _ _ h
    constructor
    · intro hacc
      refine hrc ?_
      intro e he
      rcases List.mem_append.mp he with he | he
      · exact hacc e he
      · rcases List.mem_map.mp he with ⟨c, _, rfl⟩
        trivial
    · intro hst hacc
      have hst1 : stOK st1 := hpres1 hst
      refine hrt (stOK_mk ((skipWSNLT_suffix _).trans
        ((skipComma_suffix _).trans (skipWhitespaceT_suffix _))) hst1.1 comsOK_nil) ?_
      intro e he
      rcases List.mem_append.mp he with he | he
      · exact hacc e he
      · rcases List.mem_map.mp he with ⟨c, hc, rfl⟩
        exact hst1.2 c hc

theorem inv_step_objLoop (f : Nat) (hroot : RootInvP f) (hobjl : ObjLoopInvP f) :
    ObjLoopInvP (f + 1) := by
  intro st acc out h
  unfold parseObjLoopF at h
  split at h
  · injection h with h1
    rw [← h1]
    exact ⟨fun hacc => hacc, fun hst hacc => ⟨hacc, hst⟩⟩
  rw [Option.bind_eq_bind', Option.bind_eq_some] at h
  obtain ⟨st1, hcol, h⟩ := h
  obtain ⟨hsuf1, hpres1⟩ := collectCommentsF_ok _ _ _ hcol
  split at h
  · injection h with h1
    rw [← h1]
    exact ⟨fun hacc => hacc, fun hst hacc => ⟨hacc, hpres1 hst⟩⟩
  rw [Option.bind_eq_bind', Option.bind_eq_some] at h
  obtain ⟨⟨node?, st2⟩, hre, h⟩ := h
  dsimp only at h
  obtain ⟨hrec, hret⟩ := hroot _ _ hre
  split at h
  · -- a node was parsed
    split at h
    · -- no pending comments to attach
      obtain ⟨hlc, hlt⟩ := hobjl _ _ _ h
      constructor
      · intro hacc
        refine hlc ?_
        intro m hm
        rcases List.mem_append.mp hm with hm | hm
        · exact hacc m hm
        · rcases List.mem_singleton.mp hm with rfl
          exact hrec _ rfl
      · intro hst hacc
        obtain ⟨hmt, hst2⟩ := hret (hpres1 hst)
        refine hlt (stOK_mk ((skipWSNLT_suffix _).trans
          ((skipComma_suffix _).trans (skipWhitespaceT_suffix _))) hst2.1 hst2.2) ?_
        intro m hm
        rcases List.mem_append.mp hm with hm | hm
        · exact hacc m hm
        · rcases List.mem_singleton.mp hm with rfl
          exact hmt _ rfl
    · -- attach the pending comments as leading comments
      obtain ⟨hlc, hlt⟩ := hobjl _ _ _ h
      constructor
      · intro hacc
        refine hlc ?_
        intro m hm
        rcases List.mem_append.mp hm with hm | hm
        · exact hacc m hm
        · rcases List.mem_singleton.mp hm with rfl
          exact withLeading_concatInv (hrec _ rfl) _
      · intro hst hacc
        obtain ⟨hmt, hst2⟩ := hret (hpres1 hst)
        refine hlt (stOK_mk ((skipWSNLT_suffix _).trans
          ((skipComma_suffix _).trans (skipWhitespaceT_suffix _))) hst2.1 comsOK_nil) ?_
        intro m hm
        rcases List.mem_append.mp hm with hm | hm
        · exact hacc m hm
        · rcases List.mem_singleton.mp hm with rfl
          exact withLeading_textInv (hmt _ rfl) hst2.2
  · -- token skipped, nothing parsed
    obtain ⟨hlc, hlt⟩ := hobjl _ _ _ h
    constructor
    · exact fun hacc => hlc hacc
    · intro hst hacc
      obtain ⟨_, hst2⟩ := hret (hpres1 hst)
      exact hlt (stOK_mk ((skipWSNLT_suffix _).trans
        ((skipComma_suffix _).trans (skipWhitespaceT_suffix _))) hst2.1 hst2.2) hacc

theorem inv_step_field (f : Nat) (hvalue : ValueInvP f) : FieldInvP (f + 1) := by
  intro st out h
  unfold parseFieldF at h
  rw [Option.bind_eq_bind', Option.bind_eq_some] at h
  obtain ⟨⟨key, ts1⟩, hkey, h⟩ := h
  dsimp only at h
  rw [Option.bind_eq_bind', Option.bind_eq_some] at h
  obtain ⟨⟨value, st1⟩, hval, h⟩ := h
  dsimp only at h
  injection h with h1
  rw [← h1]
  obtain ⟨hvc, hvt⟩ := hvalue _ _ hval
  refine ⟨hvc, ?_⟩
  intro hst
  have hts1 : toksOK ts1 := toksOK_of_suffix (parseKey_suffix hkey) hst.1
  obtain ⟨hvt', hst1⟩ := hvt (stOK_mk ((skipWhitespaceT_suffix _).trans
    ((parseFieldSep_suffix _).trans (skipWhitespaceT_suffix _))) hts1 hst.2)
  refine ⟨⟨hvt', comsOK_nil,
    parseTrailingComment_ok (toksOK_of_suffix (skipWhitespaceT_suffix _) hst1.1)⟩, ?_, hst1.2⟩
  exact toksOK_of_suffix ((parseTrailingComment_suffix _).trans
    (skipWhitespaceT_suffix _)) hst1.1

set_option maxHeartbeats 3200000 in
theorem inv_step_root (f : Nat) (hfield : FieldInvP f) : RootInvP (f + 1) := by
  intro st out h
  unfold parseRootElementF at h
  dsimp only [Nat.add_one] at h
  split at h
  · -- include
    next hincl =>
    obtain ⟨hsuf, hcinc, htinc⟩ := parseInclude_props st.toks
    injection h with h1
    rw [← h1]
    constructor
    · intro m hm
      injection hm with hm1
      rw [← hm1]
      exact hcinc
    · intro hst
      refine ⟨?_, ?_, hst.2⟩
      · intro m hm
        injection hm with hm1
        rw [← hm1]
        exact htinc
      · exact toksOK_of_suffix hsuf hst.1
  split at h
  · -- field
    rw [Option.bind_eq_bind', Option.bind_eq_some] at h
    obtain ⟨⟨m, st1⟩, hfld, h⟩ := h
    dsimp only at h
    injection h with h1
    rw [← h1]
    obtain ⟨hmc, hmt⟩ := hfield _ _ hfld
    constructor
    · intro m' hm'
      injection hm' with hm1
      rw [← hm1]
      exact hmc
    · intro hst
      obtain ⟨hmt', hst1⟩ := hmt hst
      refine ⟨?_, hst1⟩
      intro m' hm'
      injection hm' with hm1
      rw [← hm1]
      exact hmt'
  split at h
  · -- standalone comment
    next hcond =>
    injection h with h1
    rw [← h1]
    constructor
    · intro m hm
      injection hm with hm1
      rw [← hm1]
      trivial
    · intro hst
      refine ⟨?_, toksOK_of_suffix (by rw [parseComment_snd]; exact adv_suffix _) hst.1, hst.2⟩
      intro m hm
      injection hm with hm1
      rw [← hm1]
      exact ⟨parseComment_ok hst.1 hcond, comsOK_nil⟩
  · -- unknown token: skipped
    injection h with h1
    rw [← h1]
    refine ⟨?_, ?_⟩
    · intro m hm
      exact Option.noConfusion hm
    · intro hst
      refine ⟨?_, toksOK_of_suffix (adv_suffix _) hst.1, hst.2⟩
      intro m hm
      exact Option.noConfusion hm

theorem inv_step_docLoop (f : Nat) (hroot : RootInvP f) (hdl : DocLoopInvP f) :
    DocLoopInvP (f + 1) := by
  intro st acc out h
  unfold parseDocLoopF at h
  split at h
  · injection h with h1
    rw [← h1]
    exact ⟨fun hacc => hacc, fun hst hacc => ⟨hacc, hst⟩⟩
  rw [Option.bind_eq_bind', Option.bind_eq_some] at h
  obtain ⟨st1, hcol, h⟩ := h
  obtain ⟨hsuf1, hpres1⟩ := collectCommentsF_ok _ _ _ hcol
  split at h
  · injection h with h1
    rw [← h1]
    exact ⟨fun hacc => hacc, fun hst hacc => ⟨hacc, hpres1 hst⟩⟩
  rw [Option.bind_eq_bind', Option.bind_eq_some] at h
  obtain ⟨⟨node?, st2⟩, hre, h⟩ := h
  dsimp only at h
  obtain ⟨hrec, hret⟩ := hroot _ _ hre
  split at h
  · -- a node was parsed
    split at h
    · -- no pending comments to attach
      obtain ⟨hlc, hlt⟩ := hdl _ _ _ h
      constructor
      · intro hacc
        refine hlc ?_
        intro m hm
        rcases List.mem_append.mp hm with hm | hm
        · exact hacc m hm
        · rcases List.mem_singleton.mp hm with rfl
          exact hrec _ rfl
      · intro hst hacc
        obtain ⟨hmt, hst2⟩ := hret (hpres1 hst)
        refine hlt (stOK_mk (skipWSNLT_suffix _) hst2.1 hst2.2) ?_
        intro m hm
        rcases List.mem_append.mp hm with hm | hm
        · exact hacc m hm
        · rcases List.mem_singleton.mp hm with rfl
          exact hmt _ rfl
    · -- attach the pending comments as leading comments
      obtain ⟨hlc, hlt⟩ := hdl _ _ _ h
      constructor
      · intro hacc
        refine hlc ?_
        intro m hm
        rcases List.mem_append.mp hm with hm | hm
        · exact hacc m hm
        · rcases List.mem_singleton.mp hm with rfl
          exact withLeading_concatInv (hrec _ rfl) _
      · intro hst hacc
        obtain ⟨hmt, hst2⟩ := hret (hpres1 hst)
        refine hlt (stOK_mk (skipWSNLT_suffix _) hst2.1 comsOK_nil) ?_
        intro m hm
        rcases List.mem_append.mp hm with hm | hm
        · exact hacc m hm
        · rcases List.mem_singleton.mp hm with rfl
          exact withLeading_textInv (hmt _ rfl) hst2.2
  · -- token skipped, nothing parsed
    obtain ⟨hlc, hlt⟩ := hdl _ _ _ h
    constructor
    · exact fun hacc => hlc hacc
    · intro hst hacc
      obtain ⟨_, hst2⟩ := hret (hpres1 hst)
      exact hlt (stOK_mk (skipWSNLT_suffix _) hst2.1 hst2.2) hacc

theorem inv_step_doc (f : Nat) (hdl : DocLoopInvP f) : DocInvP (f + 1) := by
  intro st doc h
  unfold parseDocumentF at h
  dsimp only [Nat.add_one] at h
  rw [Option.bind_eq_bind', Option.bind_eq_some] at h
  obtain ⟨⟨body, st'⟩, hloop, h⟩ := h
  dsimp only at h
  injection h with h1
  rw [← h1]
  obtain ⟨hc, ht⟩ := hdl _ _ _ hloop
  constructor
  · intro m hm
    rcases List.mem_append.mp hm with hm | hm
    · exact hc (fun x hx => absurd hx (List.not_mem_nil x)) m hm
    · rcases List.mem_map.mp hm with ⟨c, _, rfl⟩
      trivial
  · intro hst
    obtain ⟨ht', hst'⟩ := ht (stOK_mk (skipWSNLT_suffix _) hst.1 hst.2)
      (fun x hx => absurd hx (List.not_mem_nil x))
    intro m hm
    rcases List.mem_append.mp hm with hm | hm
    · exact ht' m hm
    · exact ((pendingMembers_ok hst'.2) m hm).2

/-- All eleven parser invariants hold at every fuel: the parser only builds
concatenations with at least two parts, and from well-formed tokens it only
builds text-well-formed documents. -/
theorem parserInv : ∀ f, DocInvP f ∧ DocLoopInvP f ∧ RootInvP f ∧ FieldInvP f ∧
    ValueInvP f ∧ ConcatLoopInvP f ∧ SingleInvP f ∧ ObjInvP f ∧ ObjLoopInvP f ∧
    ArrInvP f ∧ ArrLoopInvP f := by
  intro f
  induction f with
  | zero =>
    refine ⟨?_, ?_, ?_, ?_, ?_, ?_, ?_, ?_, ?_, ?_, ?_⟩
    · exact fun _ _ h => Option.noConfusion h
    · exact fun _ _ _ h => Option.noConfusion h
    · exact fun _ _ h => Option.noConfusion h
    · exact fun _ _ h => Option.noConfusion h
    · exact fun _ _ h => Option.noConfusion h
    · exact fun _ _ _ h => Option.noConfusion h
    · exact fun _ _ h => Option.noConfusion h
    · exact fun _ _ h => Option.noConfusion h
    · exact fun _ _ _ h => Option.noConfusion h
    · exact fun _ _ h => Option.noConfusion h
    · exact fun _ _ _ h => Option.noConfusion h
  | succ g ih =>
    obtain ⟨hdoc, hdl, hroot, hfield, hvalue, hclp, hsingle, hobj, hobjl, harr, harrl⟩ := ih
    exact ⟨inv_step_doc g hdl, inv_step_docLoop g hroot hdl, inv_step_root g hfield,
      inv_step_field g hvalue, inv_step_value g hsingle hclp,
      inv_step_concatLoop g hsingle hclp, inv_step_single g hobj harr,
      inv_step_object g hobjl, inv_step_objLoop g hroot hobjl,
      inv_step_array g harrl, inv_step_arrLoop g hvalue harrl⟩

/-- C8: on every input the pipeline accepts, the formatted output ends with
exactly one trailing newline (its maximal trailing newline run has length 1,
so there is no blank line at the very end) and contains no run of three or
more consecutive newline characters anywhere. -/
theorem format_newline_discipline (fuel : Nat) (s : String) (out : String)
    (h : format fuel s = some out) :
    trailNLRun out.data = 1 ∧ ¬ ['\n', '\n', '\n'] <:+: out.data := by
  unfold format at h
  rcases Option.map_eq_some'.mp h with ⟨doc, hdoc, hout⟩
  unfold parse at hdoc
  have hinv := ((parserInv fuel).1 _ _ hdoc).2 ⟨tokenize_ok s, comsOK_nil⟩
  rw [← hout]
  exact formatAst_trail doc hinv

/-- Witness for C8 at the concrete input `key`. -/
theorem format_newline_discipline_witness :
    trailNLRun ("key = \"\"\n" : String).data = 1 ∧
      ¬ ['\n', '\n', '\n'] <:+: ("key = \"\"\n" : String).data :=
  format_newline_discipline 300 "key" "key = \"\"\n" (by rfl)

/-- C9: for every fuel and every parser state (any token sequence with any
pending comments), every concatenation node in a successfully parsed
document has at least two parts; a single parsed unit is returned directly,
never wrapped. -/
theorem parse_concatenations_have_two_parts (fuel : Nat) (st : PSt) (doc : Document)
    (h : parseDocumentF fuel st = some doc) : concatInvDoc doc :=
  ((parserInv fuel).1 st doc h).1

/-- Witness for C9 on the tokens of `a = 1 2`, which parses to a two-part
concatenation. -/
theorem parse_concatenations_have_two_parts_witness :
    concatInvDoc ((parseDocumentF 300 ⟨tokenize "a = 1 2", []⟩).getD []) :=
  parse_concatenations_have_two_parts 300 ⟨tokenize "a = 1 2", []⟩ _ (by rfl)

end Hocon
